import Mathlib

/-!
Verification of the 2D software-rasterization core of the YGO-Clone engine.

The Cython sources are shallowly embedded: C `double` becomes `ℚ` (exact
arithmetic), C `int` becomes `ℤ`, `uint32`/`uint8` become `ℕ` with explicit
masking where the C code masks, and the caller-owned framebuffer becomes a
total function `ℤ → ℤ → ℕ` together with its declared extent.  Loops are
embedded either structurally (folds over the iteration range) or with an
explicit fuel parameter whose sufficiency is proved where it matters.
-/

/-- C cast `<int>` applied to a double: truncation toward zero. -/
def cint (q : ℚ) : ℤ := if q < 0 then ⌈q⌉ else ⌊q⌋

/-! ### engine/graphics/tools/colors.pxd -/

/-- `pack_rgba(r,g,b,a) = (a<<24)|(r<<16)|(g<<8)|b` (arguments are bytes). -/
def pack_rgba (r g b a : ℕ) : ℕ := (a <<< 24) ||| (r <<< 16) ||| (g <<< 8) ||| b

/-- `unpack_rgba` byte extraction, returned as `(r, g, b, a)`. -/
def unpack_rgba (color : ℕ) : ℕ × ℕ × ℕ × ℕ :=
  (((color >>> 16) &&& 0xFF), ((color >>> 8) &&& 0xFF), (color &&& 0xFF), ((color >>> 24) &&& 0xFF))

/-- `blend_colors(src, dst)`: source-over with the two fast paths and the
`>>8` approximation; the `uint8` stores are modelled by `% 256`. -/
def blend_colors (src dst : ℕ) : ℕ :=
  if src >>> 24 = 0 then dst
  else if src >>> 24 = 255 then src
  else
    let sr := (src >>> 16) &&& 0xFF
    let sg := (src >>> 8) &&& 0xFF
    let sb := src &&& 0xFF
    let sa := (src >>> 24) &&& 0xFF
    let dr := (dst >>> 16) &&& 0xFF
    let dg := (dst >>> 8) &&& 0xFF
    let db := dst &&& 0xFF
    let da := (dst >>> 24) &&& 0xFF
    let inv_a := 255 - sa
    let out_r := ((sr * sa + dr * inv_a) >>> 8) % 256
    let out_g := ((sg * sa + dg * inv_a) >>> 8) % 256
    let out_b := ((sb * sa + db * inv_a) >>> 8) % 256
    let out_a := (sa + ((da * inv_a) >>> 8)) % 256
    pack_rgba out_r out_g out_b out_a

/-! ### Framebuffer model

`buffer[x, y]` with `x ∈ [0,W)`, `y ∈ [0,H)`; the store is a total function so
that an (impossible) out-of-range store would be observable. -/

structure Frame where
  w : ℤ
  h : ℤ
  data : ℤ → ℤ → ℕ

/-- The raw store `buffer[x, y] = c` (no bounds check: the C code compiles
with `boundscheck=False`). -/
def setPix (fb : Frame) (x y : ℤ) (c : ℕ) : Frame :=
  { fb with data := fun i j => if i = x ∧ j = y then c else fb.data i j }

/-- The integer interval `[a, b)` as a list, used to embed `for i in range(a, b)`. -/
def intRange (a b : ℤ) : List ℤ := (List.range (b - a).toNat).map (fun k : ℕ => a + (k : ℤ))

/-! ### src/unnamed/part_000 (rect.pyx) -/

/-- `rasterize_rect_filled_c`: clamp the rectangle to the buffer, then
overwrite (alpha 255), blend (alpha > 0) or do nothing. -/
def rasterize_rect_filled_c (fb : Frame) (x y w h : ℤ) (color : ℕ) : Frame :=
  let x1 := if x < 0 then 0 else x
  let w1 := if x < 0 then w + x else w
  let y1 := if y < 0 then 0 else y
  let h1 := if y < 0 then h + y else h
  let w2 := if x1 + w1 > fb.w then fb.w - x1 else w1
  let h2 := if y1 + h1 > fb.h then fb.h - y1 else h1
  if w2 ≤ 0 ∨ h2 ≤ 0 then fb
  else
    let alpha := (color >>> 24) &&& 0xFF
    if alpha = 255 then
      (intRange x1 (x1 + w2)).foldl (fun fa i =>
        (intRange y1 (y1 + h2)).foldl (fun fa2 j => setPix fa2 i j color) fa) fb
    else if alpha > 0 then
      (intRange x1 (x1 + w2)).foldl (fun fa i =>
        (intRange y1 (y1 + h2)).foldl (fun fa2 j =>
          setPix fa2 i j (blend_colors color (fa2.data i j))) fa) fb
    else fb

/-- `fill_rect` entry point. -/
def fill_rect (fb : Frame) (x y w h : ℤ) (color : ℕ) : Frame :=
  rasterize_rect_filled_c fb x y w h color

/-- `draw_rect_outline`: four filled strips. -/
def draw_rect_outline (fb : Frame) (x y w h : ℤ) (color : ℕ) (thickness : ℤ) : Frame :=
  let fb1 := rasterize_rect_filled_c fb x y w thickness color
  let fb2 := rasterize_rect_filled_c fb1 x (y + h - thickness) w thickness color
  let fb3 := rasterize_rect_filled_c fb2 x (y + thickness) thickness (h - 2 * thickness) color
  rasterize_rect_filled_c fb3 (x + w - thickness) (y + thickness) thickness (h - 2 * thickness) color

/-! ### engine/graphics/rasterizer/primitives/point.pyx -/

/-- `draw_pixel_c`: single bounds-checked blended store. -/
def draw_pixel_c (fb : Frame) (x y : ℤ) (color : ℕ) : Frame :=
  if 0 ≤ x ∧ x < fb.w ∧ 0 ≤ y ∧ y < fb.h then
    setPix fb x y (blend_colors color (fb.data x y))
  else fb

/-- `draw_point` entry point. -/
def draw_point (fb : Frame) (x y : ℤ) (color : ℕ) : Frame := draw_pixel_c fb x y color

/-- `draw_points`: batch of truncated `Vector2` points, each bounds-checked. -/
def draw_points (fb : Frame) (points : List (ℚ × ℚ)) (color : ℕ) : Frame :=
  points.foldl (fun fa v =>
    let px := cint v.1
    let py := cint v.2
    if 0 ≤ px ∧ px < fa.w ∧ 0 ≤ py ∧ py < fa.h then
      setPix fa px py (blend_colors color (fa.data px py))
    else fa) fb

/-! ### engine/graphics/rasterizer/primitives/line.pyx -/

/-- One-loop body of `rasterize_line_c` (Bresenham), with fuel; `dx, dy, sx, sy`
are the loop-invariant quantities computed before the loop. -/
def rasterize_line_loop (dx dy sx sy : ℤ) (x1 y1 : ℤ) (color : ℕ) :
    ℕ → Frame → ℤ → ℤ → ℤ → Frame
  | 0, fb, _, _, _ => fb
  | fuel + 1, fb, x0, y0, err =>
    let fb1 := if 0 ≤ x0 ∧ x0 < fb.w ∧ 0 ≤ y0 ∧ y0 < fb.h then
        setPix fb x0 y0 (blend_colors color (fb.data x0 y0)) else fb
    if x0 = x1 ∧ y0 = y1 then fb1
    else
      let e2 := 2 * err
      let err1 := if e2 > -dy then err - dy else err
      let x0n := if e2 > -dy then x0 + sx else x0
      let err2 := if e2 < dx then err1 + dx else err1
      let y0n := if e2 < dx then y0 + sy else y0
      rasterize_line_loop dx dy sx sy x1 y1 color fuel fb1 x0n y0n err2

/-- `rasterize_line_c`: the loop runs at most `|x1-x0| + |y1-y0| + 1` times,
which is the fuel supplied. -/
def rasterize_line_c (fb : Frame) (x0 y0 x1 y1 : ℤ) (color : ℕ) : Frame :=
  let dx := |x1 - x0|
  let dy := |y1 - y0|
  let sx : ℤ := if x0 < x1 then 1 else -1
  let sy : ℤ := if y0 < y1 then 1 else -1
  rasterize_line_loop dx dy sx sy x1 y1 color ((dx + dy).toNat + 1) fb x0 y0 (dx - dy)

/-- `draw_line` entry point. -/
def draw_line (fb : Frame) (x0 y0 x1 y1 : ℤ) (color : ℕ) : Frame :=
  rasterize_line_c fb x0 y0 x1 y1 color

/-! ### engine/graphics/rasterizer/primitives/circle.pyx (first half) -/

/-- `_plot`: bounds-checked blended store. -/
def plot_c (fb : Frame) (x y : ℤ) (color : ℕ) : Frame :=
  if 0 ≤ x ∧ x < fb.w ∧ 0 ≤ y ∧ y < fb.h then
    setPix fb x y (blend_colors color (fb.data x y))
  else fb

/-- `_scanline_h`: horizontal span `[x1, x2]` at row `y`, clamped to the buffer. -/
def scanline_h (fb : Frame) (x1 x2 y : ℤ) (color : ℕ) : Frame :=
  if y < 0 ∨ y ≥ fb.h then fb
  else
    let a := if x1 < 0 then 0 else x1
    let b := if x2 ≥ fb.w then fb.w - 1 else x2
    if a > b then fb
    else (intRange a (b + 1)).foldl (fun fa i =>
      setPix fa i y (blend_colors color (fa.data i y))) fb

/-- Midpoint-circle loop of `draw_circle_filled` (fuelled). -/
def circle_filled_loop (cx cy : ℤ) (color : ℕ) : ℕ → Frame → ℤ → ℤ → ℤ → Frame
  | 0, fb, _, _, _ => fb
  | fuel + 1, fb, x, y, d =>
    if y < x then fb
    else
      let fb1 := scanline_h fb (cx - x) (cx + x) (cy + y) color
      let fb2 := scanline_h fb1 (cx - x) (cx + x) (cy - y) color
      let fb3 := scanline_h fb2 (cx - y) (cx + y) (cy + x) color
      let fb4 := scanline_h fb3 (cx - y) (cx + y) (cy - x) color
      let x1 := x + 1
      if d > 0 then
        circle_filled_loop cx cy color fuel fb4 x1 (y - 1) (d + 4 * (x1 - (y - 1)) + 10)
      else
        circle_filled_loop cx cy color fuel fb4 x1 y (d + 4 * x1 + 6)

/-- `draw_circle_filled` entry point: the loop runs at most `r + 1` times. -/
def draw_circle_filled (fb : Frame) (cx cy r : ℤ) (color : ℕ) : Frame :=
  circle_filled_loop cx cy color ((r + 1).toNat + 1) fb 0 r (3 - 2 * r)

/-- Midpoint-circle loop of `draw_circle_outline` (fuelled). -/
def circle_outline_loop (cx cy : ℤ) (color : ℕ) : ℕ → Frame → ℤ → ℤ → ℤ → Frame
  | 0, fb, _, _, _ => fb
  | fuel + 1, fb, x, y, d =>
    if y < x then fb
    else
      let fb1 := plot_c fb (cx + x) (cy + y) color
      let fb2 := plot_c fb1 (cx - x) (cy + y) color
      let fb3 := plot_c fb2 (cx + x) (cy - y) color
      let fb4 := plot_c fb3 (cx - x) (cy - y) color
      let fb5 := plot_c fb4 (cx + y) (cy + x) color
      let fb6 := plot_c fb5 (cx - y) (cy + x) color
      let fb7 := plot_c fb6 (cx + y) (cy - x) color
      let fb8 := plot_c fb7 (cx - y) (cy - x) color
      let x1 := x + 1
      if d > 0 then
        circle_outline_loop cx cy color fuel fb8 x1 (y - 1) (d + 4 * (x1 - (y - 1)) + 10)
      else
        circle_outline_loop cx cy color fuel fb8 x1 y (d + 4 * x1 + 6)

/-- `draw_circle_outline` entry point. -/
def draw_circle_outline (fb : Frame) (cx cy r : ℤ) (color : ℕ) : Frame :=
  circle_outline_loop cx cy color ((r + 1).toNat + 1) fb 0 r (3 - 2 * r)

/-! ### engine/math/datatypes/vector2.pyx and src/unnamed/part_007 (transform2d.pyx) -/

structure Vector2 where
  x : ℚ
  y : ℚ
deriving DecidableEq

/-- `Vector2.is_equal_approx`: componentwise `|Δ| < 1e-5`. -/
def Vector2.is_equal_approx (a b : Vector2) : Prop :=
  |a.x - b.x| < 1e-5 ∧ |a.y - b.y| < 1e-5

instance (a b : Vector2) : Decidable (a.is_equal_approx b) := by
  unfold Vector2.is_equal_approx; infer_instance

/-- Columns `x`, `y` and `origin` of the 2×3 affine matrix
`[x.x y.x origin.x ; x.y y.y origin.y]`. -/
structure Transform2D where
  x : Vector2
  y : Vector2
  origin : Vector2
deriving DecidableEq

/-- `Transform2D.xform_c`: `M * v`. -/
def Transform2D.xform (t : Transform2D) (v : Vector2) : Vector2 :=
  ⟨t.x.x * v.x + t.y.x * v.y + t.origin.x,
   t.x.y * v.x + t.y.y * v.y + t.origin.y⟩

/-- `Transform2D.inverse`: raises (`none`) when `det = x.x*y.y - x.y*y.x` is
zero, otherwise builds the basis `inv_x = (y.y, -y.x)/det`,
`inv_y = (-x.y, x.x)/det` and origin `-(inv_basis * origin)` exactly as the
source does. -/
def Transform2D.inverse (t : Transform2D) : Option Transform2D :=
  let det := t.x.x * t.y.y - t.x.y * t.y.x
  if det = 0 then none
  else
    let idet := 1 / det
    let inv_x : Vector2 := ⟨t.y.y * idet, -t.y.x * idet⟩
    let inv_y : Vector2 := ⟨-t.x.y * idet, t.x.x * idet⟩
    let ox := t.origin.x
    let oy := t.origin.y
    some ⟨inv_x, inv_y, ⟨-(inv_x.x * ox + inv_y.x * oy), -(inv_x.y * ox + inv_y.y * oy)⟩⟩

/-! ### src/unnamed/part_004 (samplers.pyx) -/

/-- `wrap_coord(val, max_dim) = (val % max_dim + max_dim) % max_dim` with C
(truncated) `%`. -/
def wrap_coord (val max_dim : ℤ) : ℤ := Int.tmod (Int.tmod val max_dim + max_dim) max_dim

/-- `sample_nearest`: positive wrap of `u, v`, truncate `u*w`, clamp, fetch. -/
def sample_nearest (tex : ℤ → ℤ → ℕ) (w h : ℤ) (u v : ℚ) : ℕ :=
  let u1 := u - ⌊u⌋
  let v1 := v - ⌊v⌋
  let x0 := cint (u1 * w)
  let y0 := cint (v1 * h)
  let x1 := if x0 ≥ w then w - 1 else x0
  let y1 := if y0 ≥ h then h - 1 else y0
  let x2 := if x1 < 0 then 0 else x1
  let y2 := if y1 < 0 then 0 else y1
  tex x2 y2

/-- C cast `<uint8>` of a nonnegative float value: truncate, wrap to a byte. -/
def toByte (q : ℚ) : ℕ := (cint q).toNat % 256

/-- `sample_bilinear`: 4-texel fetch with true-modulo wrap and per-channel
linear interpolation, truncated to bytes. -/
def sample_bilinear (tex : ℤ → ℤ → ℕ) (w h : ℤ) (u v : ℚ) : ℕ :=
  let u1 := u - ⌊u⌋
  let v1 := v - ⌊v⌋
  let px := u1 * w - 1/2
  let py := v1 * h - 1/2
  let x0 := ⌊px⌋
  let y0 := ⌊py⌋
  let x1 := x0 + 1
  let y1 := y0 + 1
  let wx := px - x0
  let wy := py - y0
  let inv_wx := 1 - wx
  let inv_wy := 1 - wy
  let x0w := wrap_coord x0 w
  let x1w := wrap_coord x1 w
  let y0w := wrap_coord y0 h
  let y1w := wrap_coord y1 h
  let c00 := unpack_rgba (tex x0w y0w)
  let c10 := unpack_rgba (tex x1w y0w)
  let c01 := unpack_rgba (tex x0w y1w)
  let c11 := unpack_rgba (tex x1w y1w)
  let top_r := (c00.1 : ℚ) * inv_wx + (c10.1 : ℚ) * wx
  let top_g := (c00.2.1 : ℚ) * inv_wx + (c10.2.1 : ℚ) * wx
  let top_b := (c00.2.2.1 : ℚ) * inv_wx + (c10.2.2.1 : ℚ) * wx
  let top_a := (c00.2.2.2 : ℚ) * inv_wx + (c10.2.2.2 : ℚ) * wx
  let bot_r := (c01.1 : ℚ) * inv_wx + (c11.1 : ℚ) * wx
  let bot_g := (c01.2.1 : ℚ) * inv_wx + (c11.2.1 : ℚ) * wx
  let bot_b := (c01.2.2.1 : ℚ) * inv_wx + (c11.2.2.1 : ℚ) * wx
  let bot_a := (c01.2.2.2 : ℚ) * inv_wx + (c11.2.2.2 : ℚ) * wx
  pack_rgba (toByte (top_r * inv_wy + bot_r * wy)) (toByte (top_g * inv_wy + bot_g * wy))
    (toByte (top_b * inv_wy + bot_b * wy)) (toByte (top_a * inv_wy + bot_a * wy))

/-! ### engine/graphics/rasterizer/primitives/triangle.pyx -/

/-- Inner pixel loop of a triangle scanline: `x ∈ [start_x, end_x)`, per-pixel
UV interpolation by `t_curr`, bounds-checked blend; `t_curr` advances on every
iteration. -/
def tri_span (tex : ℤ → ℤ → ℕ) (tw th : ℤ) (use_bilinear : Bool) (y : ℤ)
    (au av bu bv t_step : ℚ) : List ℤ → Frame → ℚ → Frame
  | [], fb, _ => fb
  | xx :: rest, fb, t_curr =>
    let fb1 :=
      if 0 ≤ xx ∧ xx < fb.w then
        let tu := au + (bu - au) * t_curr
        let tv := av + (bv - av) * t_curr
        let src := if use_bilinear then sample_bilinear tex tw th tu tv
                   else sample_nearest tex tw th tu tv
        setPix fb xx y (blend_colors src (fb.data xx y))
      else fb
    tri_span tex tw th use_bilinear y au av bu bv t_step rest fb1 (t_curr + t_step)

/-- Body of one (non-skipped) row of `draw_triangle_textured` at row index `i`
(screen row `y`): long-edge/short-edge interpolation, left-right swap, span. -/
def tri_row_body (tex : ℤ → ℤ → ℕ) (tw th : ℤ) (use_bilinear : Bool)
    (x0 y0 u0 v0 x1 y1 u1 v1 x2 y2 u2 v2 : ℚ) (total_height : ℤ)
    (i y : ℤ) (fb : Frame) : Frame :=
  let alpha := (i : ℚ) / (total_height : ℚ)
  let ax := x0 + (x2 - x0) * alpha
  let au := u0 + (u2 - u0) * alpha
  let av := v0 + (v2 - v0) * alpha
  let bx := if (i : ℚ) < y1 - y0 then
      (if y1 - y0 ≠ 0 then x0 + (x1 - x0) * ((i : ℚ) / (y1 - y0)) else x0)
    else
      (if y2 - y1 ≠ 0 then x1 + (x2 - x1) * (((i : ℚ) - (y1 - y0)) / (y2 - y1)) else x1)
  let bu := if (i : ℚ) < y1 - y0 then
      (if y1 - y0 ≠ 0 then u0 + (u1 - u0) * ((i : ℚ) / (y1 - y0)) else u0)
    else
      (if y2 - y1 ≠ 0 then u1 + (u2 - u1) * (((i : ℚ) - (y1 - y0)) / (y2 - y1)) else u1)
  let bv := if (i : ℚ) < y1 - y0 then
      (if y1 - y0 ≠ 0 then v0 + (v1 - v0) * ((i : ℚ) / (y1 - y0)) else v0)
    else
      (if y2 - y1 ≠ 0 then v1 + (v2 - v1) * (((i : ℚ) - (y1 - y0)) / (y2 - y1)) else v1)
  let sax := if ax > bx then bx else ax
  let sbx := if ax > bx then ax else bx
  let sau := if ax > bx then bu else au
  let sbu := if ax > bx then au else bu
  let sav := if ax > bx then bv else av
  let sbv := if ax > bx then av else bv
  let start_x := cint sax
  let end_x := cint sbx
  let t_step : ℚ := if end_x > start_x then 1 / ((end_x : ℚ) - (start_x : ℚ)) else 0
  tri_span tex tw th use_bilinear y sau sav sbu sbv t_step (intRange start_x end_x) fb 0

/-- Row loop of `draw_triangle_textured`: `count` iterations remain, `i` is the
current row index; `if y >= h: break` ends the recursion, `if y < 0: continue`
skips the row. -/
def tri_rows (tex : ℤ → ℤ → ℕ) (tw th : ℤ) (use_bilinear : Bool)
    (x0 y0 u0 v0 x1 y1 u1 v1 x2 y2 u2 v2 : ℚ) (total_height : ℤ) :
    ℕ → ℤ → Frame → Frame
  | 0, _, fb => fb
  | count + 1, i, fb =>
    if cint y0 + i ≥ fb.h then fb
    else
      tri_rows tex tw th use_bilinear x0 y0 u0 v0 x1 y1 u1 v1 x2 y2 u2 v2 total_height
        count (i + 1)
        (if cint y0 + i < 0 then fb
         else tri_row_body tex tw th use_bilinear x0 y0 u0 v0 x1 y1 u1 v1 x2 y2 u2 v2
           total_height i (cint y0 + i) fb)

/-- The three `if y_a > y_b` swap passes of `draw_triangle_textured`, acting on
the list `[(v0,uv0), (v1,uv1), (v2,uv2)]`: a compare-and-swap network that
sorts the vertices by `y`, carrying UVs. -/
def tri_sort3 (a b c : (ℚ × ℚ) × (ℚ × ℚ)) :
    ((ℚ × ℚ) × (ℚ × ℚ)) × ((ℚ × ℚ) × (ℚ × ℚ)) × ((ℚ × ℚ) × (ℚ × ℚ)) :=
  let r1 := if a.1.2 > b.1.2 then (b, a) else (a, b)
  let r2 := if r1.1.1.2 > c.1.2 then (c, r1.2, r1.1) else (r1.1, r1.2, c)
  if r2.2.1.1.2 > r2.2.2.1.2 then (r2.1, r2.2.2, r2.2.1) else r2

/-- `draw_triangle_textured`: sort the three vertices by `y` (carrying UVs),
then scan `total_height = <int>(y2 - y0)` rows. -/
def draw_triangle_textured (fb : Frame) (verts uvs : List (ℚ × ℚ))
    (tex : ℤ → ℤ → ℕ) (tw th : ℤ) (use_bilinear : Bool) : Frame :=
  let s := tri_sort3 (verts.getD 0 (0, 0), uvs.getD 0 (0, 0))
    (verts.getD 1 (0, 0), uvs.getD 1 (0, 0)) (verts.getD 2 (0, 0), uvs.getD 2 (0, 0))
  let total_height := cint (s.2.2.1.2 - s.1.1.2)
  if total_height = 0 then fb
  else
    tri_rows tex tw th use_bilinear
      s.1.1.1 s.1.1.2 s.1.2.1 s.1.2.2
      s.2.1.1.1 s.2.1.1.2 s.2.1.2.1 s.2.1.2.2
      s.2.2.1.1 s.2.2.1.2 s.2.2.2.1 s.2.2.2.2
      total_height total_height.toNat 0 fb

/-! ### engine/graphics/rasterizer/primitives/circle.pyx (second half: polygon filler)

The C code keeps a per-row singly-linked `GET` bucket array (push-front) and a
flat `AET` array.  The insertion sequence `List (ℤ × AEdge)` (start row, edge)
models the `GET` exactly: bucket `y` is the reversed sub-sequence inserted at
key `y`.  Note the C code indexes `GET[y_start]` for any `y_start < h`, with
no lower bound: negative keys are representable here, as separate cells that
the sweep (rows `0 ≤ y < h`) never reads.  `u, du, v, dv` are uninitialised
in the filled variant (unused by it); they are 0 in the model. -/

structure AEdge where
  y_max : ℤ
  x : ℚ
  dx : ℚ
  u : ℚ
  du : ℚ
  v : ℚ
  dv : ℚ
deriving DecidableEq

/-- The `GET[y]` linked list (traversal order: most recently inserted first). -/
def getBucket (ins : List (ℤ × AEdge)) (y : ℤ) : List AEdge :=
  ((ins.filter (fun pr => pr.1 = y)).map Prod.snd).reverse

/-- Edge-insertion loop of `draw_polygon_filled`: for every polygon edge,
skip horizontals (`<int>` rows equal), orient upward, skip `y_start >= h` or
`y_end < 0`, record `(y_start, edge)`. -/
def buildGET_filled (vertices : List (ℚ × ℚ)) (h : ℤ) : List (ℤ × AEdge) :=
  let n := vertices.length
  (List.range n).foldl (fun ins i =>
    let a := vertices.getD i (0, 0)
    let b := vertices.getD ((i + 1) % n) (0, 0)
    if cint a.2 = cint b.2 then ins
    else
      let p1 := if a.2 > b.2 then b else a
      let p2 := if a.2 > b.2 then a else b
      let y_start := cint p1.2
      let y_end := cint p2.2
      if y_start ≥ h ∨ y_end < 0 then ins
      else ins ++ [(y_start, ⟨y_end, p1.1, (p2.1 - p1.1) / (p2.2 - p1.2), 0, 0, 0, 0⟩)]) []

/-- Edge-insertion loop of `draw_polygon_textured` (carrying UVs). -/
def buildGET_textured (vertices uvs : List (ℚ × ℚ)) (h : ℤ) : List (ℤ × AEdge) :=
  let n := vertices.length
  (List.range n).foldl (fun ins i =>
    let a := vertices.getD i (0, 0)
    let ua := uvs.getD i (0, 0)
    let b := vertices.getD ((i + 1) % n) (0, 0)
    let ub := uvs.getD ((i + 1) % n) (0, 0)
    if cint a.2 = cint b.2 then ins
    else
      let p1 := if a.2 > b.2 then b else a
      let p2 := if a.2 > b.2 then a else b
      let u1 := if a.2 > b.2 then ub else ua
      let u2 := if a.2 > b.2 then ua else ub
      let y_start := cint p1.2
      let y_end := cint p2.2
      if y_start ≥ h ∨ y_end < 0 then ins
      else
        let dy_inv := 1 / (p2.2 - p1.2)
        ins ++ [(y_start, ⟨y_end, p1.1, (p2.1 - p1.1) * dy_inv,
          u1.1, (u2.1 - u1.1) * dy_inv, u1.2, (u2.2 - u1.2) * dy_inv⟩)]) []

/-- `qsort(AET, …, compare_edges)`: sort by current `x`.  The comparator
returns 0 on equal `x`, so `qsort` fixes no order between ties; insertion sort
is one order consistent with the comparator. -/
def insertAET (e : AEdge) : List AEdge → List AEdge
  | [] => [e]
  | f :: rest => if e.x ≤ f.x then e :: f :: rest else f :: insertAET e rest

def sortAET : List AEdge → List AEdge
  | [] => []
  | e :: rest => insertAET e (sortAET rest)

/-- Successive pairs `(AET[j], AET[j+1])` for `j = 0, 2, 4, …` (`j < count-1`). -/
def spanPairs : List AEdge → List (AEdge × AEdge)
  | a :: b :: rest => (a, b) :: spanPairs rest
  | _ => []

/-- One spans of `draw_polygon_filled`: truncate the pair's `x`, clamp to
`[0, w)`, blend across `[x_start, x_end)`. -/
def fill_span (fb : Frame) (e1 e2 : AEdge) (y : ℤ) (color : ℕ) : Frame :=
  let xs := cint e1.x
  let xe := cint e2.x
  let xs1 := if xs < 0 then 0 else xs
  let xe1 := if xe > fb.w then fb.w else xe
  if xs1 < xe1 then
    (intRange xs1 xe1).foldl (fun fa k => setPix fa k y (blend_colors color (fa.data k y))) fb
  else fb

/-- AET maintenance at row `y`: transfer bucket `y` (capacity-guarded append),
drop edges with `y_max ≤ y`, sort by `x`. -/
def aetStep (get : ℤ → List AEdge) (edges_count : ℕ) (aet : List AEdge) (y : ℤ) :
    List AEdge :=
  let aet1 := (get y).foldl (fun acc e => if acc.length < edges_count then acc ++ [e] else acc) aet
  sortAET (aet1.filter (fun e => e.y_max > y))

/-- One row of the `draw_polygon_filled` sweep: AET maintenance, span fills,
and the per-edge `x += dx` advance. -/
def fill_row_step (get : ℤ → List AEdge) (edges_count : ℕ) (color : ℕ)
    (st : Frame × List AEdge) (y : ℤ) : Frame × List AEdge :=
  let aet3 := aetStep get edges_count st.2 y
  let fb1 := (spanPairs aet3).foldl (fun fa pr => fill_span fa pr.1 pr.2 y color) st.1
  (fb1, aet3.map (fun e => { e with x := e.x + e.dx }))

/-- Row sweep of `draw_polygon_filled`. -/
def fill_sweep (get : ℤ → List AEdge) (edges_count : ℕ) (color : ℕ) (rows : List ℤ)
    (fb : Frame) : Frame :=
  (rows.foldl (fill_row_step get edges_count color) (fb, [])).1

/-- `y_min_global` scan: running `int` minimum seeded with `h`, comparing the
double `p.y` against the current int and truncating on update. -/
def yMinGlobal (vertices : List (ℚ × ℚ)) (h : ℤ) : ℤ :=
  vertices.foldl (fun acc p => if p.2 < (acc : ℚ) then cint p.2 else acc) h

/-- `y_max_global` scan: running `int` maximum seeded with `0`. -/
def yMaxGlobal (vertices : List (ℚ × ℚ)) : ℤ :=
  vertices.foldl (fun acc p => if p.2 > (acc : ℚ) then cint p.2 else acc) 0

/-- `draw_polygon_filled` entry point. -/
def draw_polygon_filled (fb : Frame) (vertices : List (ℚ × ℚ)) (color : ℕ) : Frame :=
  if vertices.length < 3 then fb
  else
    let ymin := yMinGlobal vertices fb.h
    let ymax := yMaxGlobal vertices
    let ymin1 := if ymin < 0 then 0 else ymin
    let ymax1 := if ymax ≥ fb.h then fb.h - 1 else ymax
    if ymin1 > ymax1 then fb
    else
      let ins := buildGET_filled vertices fb.h
      fill_sweep (getBucket ins) ins.length color (intRange ymin1 (ymax1 + 1)) fb

/-- Instrumented sweep: the `AET` contents right after insertion, removal and
sorting, for each processed row. -/
def fill_sweep_trace (get : ℤ → List AEdge) (edges_count : ℕ) (rows : List ℤ) :
    List (ℤ × List AEdge) :=
  (rows.foldl (fun (st : List (ℤ × List AEdge) × List AEdge) y =>
    let aet3 := aetStep get edges_count st.2 y
    (st.1 ++ [(y, aet3)], aet3.map (fun e => { e with x := e.x + e.dx }))) ([], [])).1

/-- The `(row, AET)` trace of `draw_polygon_filled` on a `w × h` buffer
(empty when the fill returns before sweeping). -/
def draw_polygon_filled_trace (vertices : List (ℚ × ℚ)) (h : ℤ) :
    List (ℤ × List AEdge) :=
  if vertices.length < 3 then []
  else
    let ymin := yMinGlobal vertices h
    let ymax := yMaxGlobal vertices
    let ymin1 := if ymin < 0 then 0 else ymin
    let ymax1 := if ymax ≥ h then h - 1 else ymax
    if ymin1 > ymax1 then []
    else
      let ins := buildGET_filled vertices h
      fill_sweep_trace (getBucket ins) ins.length (intRange ymin1 (ymax1 + 1))

/-- `draw_polygon_outline`: one `rasterize_line_c` per polygon edge. -/
def draw_polygon_outline (fb : Frame) (vertices : List (ℚ × ℚ)) (color : ℕ) : Frame :=
  let n := vertices.length
  (List.range n).foldl (fun fa i =>
    let a := vertices.getD i (0, 0)
    let b := vertices.getD ((i + 1) % n) (0, 0)
    rasterize_line_c fa (cint a.1) (cint a.2) (cint b.1) (cint b.2) color) fb

/-- Textured span of `draw_polygon_textured`: per-pixel UV advance, nearest
sampling, optional modulate, blend.  The UV left-clamp shifts `cur_u, cur_v`
by `du_dx * (0 - x_start)` before clamping `x_start` to 0. -/
def textured_span (fb : Frame) (e1 e2 : AEdge) (y : ℤ)
    (tex : ℤ → ℤ → ℕ) (tw th : ℤ) (modulate : ℕ) : Frame :=
  let xs := cint e1.x
  let xe := cint e2.x
  if xe > xs then
    let span_width : ℚ := ((xe : ℚ) - (xs : ℚ))
    let du_dx := (e2.u - e1.u) / span_width
    let dv_dx := (e2.v - e1.v) / span_width
    let cu0 := if xs < 0 then e1.u + du_dx * (0 - (xs : ℚ)) else e1.u
    let cv0 := if xs < 0 then e1.v + dv_dx * (0 - (xs : ℚ)) else e1.v
    let xs1 := if xs < 0 then 0 else xs
    let xe1 := if xe > fb.w then fb.w else xe
    ((intRange xs1 xe1).foldl (fun (st : Frame × ℚ × ℚ) xx =>
      let tex_col := sample_nearest tex tw th st.2.1 st.2.2
      let tex_col2 := if modulate ≠ 0xFFFFFFFF then blend_colors tex_col modulate else tex_col
      (setPix st.1 xx y (blend_colors tex_col2 (st.1.data xx y)),
        st.2.1 + du_dx, st.2.2 + dv_dx)) (fb, cu0, cv0)).1
  else fb

/-- One row of the `draw_polygon_textured` sweep (advances `x`, `u`, `v`). -/
def textured_row_step (get : ℤ → List AEdge) (edges_count : ℕ)
    (tex : ℤ → ℤ → ℕ) (tw th : ℤ) (modulate : ℕ)
    (st : Frame × List AEdge) (y : ℤ) : Frame × List AEdge :=
  let aet3 := aetStep get edges_count st.2 y
  let fb1 := (spanPairs aet3).foldl
    (fun fa pr => textured_span fa pr.1 pr.2 y tex tw th modulate) st.1
  (fb1, aet3.map (fun e => { e with x := e.x + e.dx, u := e.u + e.du, v := e.v + e.dv }))

/-- Row sweep of `draw_polygon_textured`. -/
def textured_sweep (get : ℤ → List AEdge) (edges_count : ℕ)
    (tex : ℤ → ℤ → ℕ) (tw th : ℤ) (modulate : ℕ) (rows : List ℤ) (fb : Frame) : Frame :=
  (rows.foldl (textured_row_step get edges_count tex tw th modulate) (fb, [])).1

/-- `draw_polygon_textured` entry point. -/
def draw_polygon_textured (fb : Frame) (vertices uvs : List (ℚ × ℚ))
    (tex : ℤ → ℤ → ℕ) (tw th : ℤ) (modulate : ℕ) : Frame :=
  if vertices.length < 3 then fb
  else
    let ymin := yMinGlobal vertices fb.h
    let ymax := yMaxGlobal vertices
    let ymin1 := if ymin < 0 then 0 else ymin
    let ymax1 := if ymax ≥ fb.h then fb.h - 1 else ymax
    if ymin1 > ymax1 then fb
    else
      let ins := buildGET_textured vertices uvs fb.h
      textured_sweep (getBucket ins) ins.length tex tw th modulate
        (intRange ymin1 (ymax1 + 1)) fb

/-! ### engine/graphics/rasterizer/pipeline/clipper.pyx

Outcodes are 4-bit ints in the source (LEFT=1, RIGHT=2, BOTTOM=4, TOP=8,
with `x`-bits and `y`-bits each set by an `if/elif`, hence mutually
exclusive); here each bit is a named field. -/

structure Outcode where
  left : Bool
  right : Bool
  bottom : Bool
  top : Bool
deriving DecidableEq

/-- The all-zero outcode (`INSIDE`). -/
def Outcode.inside : Outcode := ⟨false, false, false, false⟩

/-- `outcode0 & outcode1 != 0`: the two codes share a set bit. -/
def Outcode.shares (o1 o2 : Outcode) : Bool :=
  (o1.left && o2.left) || (o1.right && o2.right) || (o1.bottom && o2.bottom) || (o1.top && o2.top)

/-- `Clipper._compute_outcode`. -/
def compute_outcode (x y mnx mny mxx mxy : ℚ) : Outcode :=
  let lr : Bool × Bool :=
    if x < mnx then (true, false) else if x > mxx then (false, true) else (false, false)
  let bt : Bool × Bool :=
    if y < mny then (true, false) else if y > mxy then (false, true) else (false, false)
  ⟨lr.1, lr.2, bt.1, bt.2⟩

/-- The `while True` loop of `Clipper.clip_line`, fuelled; `none` models
non-termination (which the C loop exhibits only on an empty clip box —
with `min ≤ max` five iterations always suffice, see `clip_line_fuel`). -/
def clip_line_loop (mnx mny mxx mxy : ℚ) :
    ℕ → ℚ → ℚ → ℚ → ℚ → Option ((Option (ℚ × ℚ × ℚ × ℚ)) × Bool)
  | 0, _, _, _, _ => none
  | fuel + 1, x1, y1, x2, y2 =>
    let o1 := compute_outcode x1 y1 mnx mny mxx mxy
    let o2 := compute_outcode x2 y2 mnx mny mxx mxy
    if o1 = Outcode.inside ∧ o2 = Outcode.inside then some (some (x1, y1, x2, y2), true)
    else if o1.shares o2 then some (none, false)
    else
      let oc := if o1 ≠ Outcode.inside then o1 else o2
      let nx : ℚ :=
        if oc.top then x1 + (x2 - x1) * (mxy - y1) / (y2 - y1)
        else if oc.bottom then x1 + (x2 - x1) * (mny - y1) / (y2 - y1)
        else if oc.right then mxx
        else if oc.left then mnx
        else 0
      let ny : ℚ :=
        if oc.top then mxy
        else if oc.bottom then mny
        else if oc.right then y1 + (y2 - y1) * (mxx - x1) / (x2 - x1)
        else if oc.left then y1 + (y2 - y1) * (mnx - x1) / (x2 - x1)
        else 0
      if oc = o1 then clip_line_loop mnx mny mxx mxy fuel nx ny x2 y2
      else clip_line_loop mnx mny mxx mxy fuel x1 y1 nx ny

/-- `Clipper.clip_line`. -/
def clip_line (x1 y1 x2 y2 mnx mny mxx mxy : ℚ) :
    Option ((Option (ℚ × ℚ × ℚ × ℚ)) × Bool) :=
  clip_line_loop mnx mny mxx mxy 5 x1 y1 x2 y2

/-- The clipper's `Vertex` struct: position plus carried UV. -/
structure Vertex where
  x : ℚ
  y : ℚ
  u : ℚ
  v : ℚ
deriving DecidableEq

/-- `Clipper._intersect`: parametric intersection with a vertical
(`axis_idx = 0`) or horizontal boundary, interpolating x, y, u, v;
a degenerate edge returns `p1`. -/
def clip_intersect (p1 p2 : Vertex) (clip_val : ℚ) (axis_idx : ℕ) : Vertex :=
  let val_p1 := if axis_idx = 0 then p1.x else p1.y
  let val_p2 := if axis_idx = 0 then p2.x else p2.y
  let diff := val_p2 - val_p1
  if diff = 0 then p1
  else
    let t := (clip_val - val_p1) / diff
    ⟨p1.x + (p2.x - p1.x) * t, p1.y + (p2.y - p1.y) * t,
     p1.u + (p2.u - p1.u) * t, p1.v + (p2.v - p1.v) * t⟩

/-- One edge `(p1, p2)` of a Sutherland–Hodgman pass (`p1 = st.2`): emit 0–2
vertices according to the in/in, in/out, out/in, out/out case. -/
def clip_axis_step (boundary : ℚ) (axis_idx : ℕ) (sign : ℚ)
    (st : List Vertex × Vertex) (p2 : Vertex) : List Vertex × Vertex :=
  let p1 := st.2
  let val_p1 := if axis_idx = 0 then p1.x else p1.y
  let val_p2 := if axis_idx = 0 then p2.x else p2.y
  let in1 := val_p1 * sign ≥ boundary * sign
  let in2 := val_p2 * sign ≥ boundary * sign
  let out : List Vertex :=
    if in1 ∧ in2 then [p2]
    else if in1 ∧ ¬ in2 then [clip_intersect p1 p2 boundary axis_idx]
    else if ¬ in1 ∧ in2 then [clip_intersect p1 p2 boundary axis_idx, p2]
    else []
  (st.1 ++ out, p2)

/-- `Clipper._clip_axis`: one Sutherland–Hodgman pass; `p1` starts at the
last input vertex. -/
def clip_axis (inp : List Vertex) (boundary : ℚ) (axis_idx : ℕ) (sign : ℚ) : List Vertex :=
  match inp.getLast? with
  | none => []
  | some last => (inp.foldl (clip_axis_step boundary axis_idx sign) ([], last)).1

/-- `Clipper.clip_polygon`: build the vertex buffer (UVs zero when
`input_uvs` is absent or of mismatched length), run the four axis clips,
return `([], [])` when fewer than 3 vertices survive. -/
def clip_polygon (input_points : List (ℚ × ℚ)) (input_uvs : Option (List (ℚ × ℚ)))
    (mnx mny mxx mxy : ℚ) : List (ℚ × ℚ) × List (ℚ × ℚ) :=
  let n := input_points.length
  let has_uvs : Bool := match input_uvs with
    | some l => decide (l.length = n)
    | none => false
  if n = 0 then ([], [])
  else
    let buf : List Vertex := (List.range n).map (fun i =>
      let p := input_points.getD i (0, 0)
      let uv := if has_uvs then (input_uvs.getD []).getD i (0, 0) else (0, 0)
      ⟨p.1, p.2, uv.1, uv.2⟩)
    let b1 := clip_axis buf mnx 0 1
    let b2 := clip_axis b1 mxx 0 (-1)
    let b3 := clip_axis b2 mny 1 1
    let b4 := clip_axis b3 mxy 1 (-1)
    if b4.length < 3 then ([], [])
    else (b4.map (fun p => (p.x, p.y)), b4.map (fun p => (p.u, p.v)))

/-! ### engine/math/algorithms/homography.pyx -/

/-- The 8×8 system state of `compute_homography`: the Python lists
`matrix` and `rhs` as indexed families (entries outside `[0,8)` never read). -/
structure GJState where
  M : ℕ → ℕ → ℚ
  r : ℕ → ℚ

/-- Partial-pivot search: `argmax |A[r,col]|` over `r ∈ [col, 8)` (strict
improvement, first maximum wins, identical to the source loop). -/
def argmaxRow (M : ℕ → ℕ → ℚ) (col : ℕ) : ℕ :=
  ((List.range' (col + 1) (7 - col)).foldl (fun (best : ℕ × ℚ) row =>
    if |M row col| > best.2 then (row, |M row col|) else best) (col, |M col col|)).1

/-- The row swap `matrix[col] ↔ matrix[max_row]`, `rhs[col] ↔ rhs[max_row]`. -/
def gjSwap (st : GJState) (col mr : ℕ) : GJState :=
  ⟨fun i j => if i = col then st.M mr j else if i = mr then st.M col j else st.M i j,
   fun i => if i = col then st.r mr else if i = mr then st.r col else st.r i⟩

/-- The pivot-row scaling `matrix[col][j] *= inv_pivot` for `j ∈ [col, 8)`,
`rhs[col] *= inv_pivot`. -/
def gjScale (st : GJState) (col : ℕ) (inv_pivot : ℚ) : GJState :=
  ⟨fun i j => if i = col ∧ col ≤ j ∧ j < 8 then st.M i j * inv_pivot else st.M i j,
   fun i => if i = col then st.r i * inv_pivot else st.r i⟩

/-- The elimination `matrix[row][j] -= factor * matrix[col][j]` (`j ∈ [col, 8)`),
`rhs[row] -= factor * rhs[col]` in every row `row ≠ col`, with
`factor = matrix[row][col]` read before the row is modified. -/
def gjElim (st : GJState) (col : ℕ) : GJState :=
  ⟨fun i j => if i < 8 ∧ i ≠ col ∧ col ≤ j ∧ j < 8 then st.M i j - st.M i col * st.M col j
    else st.M i j,
   fun i => if i < 8 ∧ i ≠ col then st.r i - st.M i col * st.r col else st.r i⟩

/-- One column step of the Gauss–Jordan loop: pivot search, row swap,
near-singular bail-out (`none`), row scaling and elimination. -/
def gjStep (col : ℕ) (st : GJState) : Option GJState :=
  let st1 := gjSwap st col (argmaxRow st.M col)
  if |st1.M col col| < 1e-9 then none
  else some (gjElim (gjScale st1 col (1 / st1.M col col)) col)

/-- The `for col in range(n)` elimination loop (short-circuiting on the
near-singular bail-out). -/
def gjRun : List ℕ → GJState → Option GJState
  | [], st => some st
  | c :: rest, st => (gjStep c st).bind (gjRun rest)

/-- Rows `[x y 1 0 0 0 -xu -yu]`, `[0 0 0 x y 1 -xv -yv]` for the four
point pairs, in source order. -/
def homographyRows (src dst : List (ℚ × ℚ)) : List (List ℚ) :=
  (List.range 4).foldl (fun acc i =>
    let s := src.getD i (0, 0)
    let d := dst.getD i (0, 0)
    acc ++ [[s.1, s.2, 1, 0, 0, 0, -s.1 * d.1, -s.2 * d.1],
            [0, 0, 0, s.1, s.2, 1, -s.1 * d.2, -s.2 * d.2]]) []

set_option linter.unusedVariables false in
/-- The right-hand sides `u, v` per point pair, in source order. -/
def homographyRhs (src dst : List (ℚ × ℚ)) : List ℚ :=
  (List.range 4).foldl (fun acc i =>
    let d := dst.getD i (0, 0)
    acc ++ [d.1, d.2]) []

/-- The elimination part of `compute_homography`: `none` is the
near-singular path (identity fallback + logged error in the source). -/
def computeHomographyE (src dst : List (ℚ × ℚ)) : Option (List (List ℚ)) :=
  (gjRun (List.range 8)
      ⟨fun i j => ((homographyRows src dst).getD i []).getD j 0,
       fun i => (homographyRhs src dst).getD i 0⟩).map
    (fun st => [[st.r 0, st.r 1, st.r 2], [st.r 3, st.r 4, st.r 5], [st.r 6, st.r 7, 1]])

/-- `compute_homography`: `none` models the `ValueError` on a wrong point
count; the inner `getD` is the identity fallback. -/
def compute_homography (src dst : List (ℚ × ℚ)) : Option (List (List ℚ)) :=
  if src.length = 4 ∧ dst.length = 4 then
    some ((computeHomographyE src dst).getD [[1, 0, 0], [0, 1, 0], [0, 0, 1]])
  else none

/-- `apply_homography`: projective application, returning the input when
`|denom| < 1e-9`. -/
def apply_homography (hm : List (List ℚ)) (x y : ℚ) : ℚ × ℚ :=
  let h00 := (hm.getD 0 []).getD 0 0
  let h01 := (hm.getD 0 []).getD 1 0
  let h02 := (hm.getD 0 []).getD 2 0
  let h10 := (hm.getD 1 []).getD 0 0
  let h11 := (hm.getD 1 []).getD 1 0
  let h12 := (hm.getD 1 []).getD 2 0
  let h20 := (hm.getD 2 []).getD 0 0
  let h21 := (hm.getD 2 []).getD 1 0
  let h22 := (hm.getD 2 []).getD 2 0
  let denom := h20 * x + h21 * y + h22
  if |denom| < 1e-9 then (x, y)
  else ((h00 * x + h01 * y + h02) * (1 / denom), (h10 * x + h11 * y + h12) * (1 / denom))

/-! ### Bounds predicates (for the out-of-bounds-write claims) -/

/-- The pixel coordinate `(p, q)` lies outside `[0,W) × [0,H)` of `fb`. -/
def OutBounds (fb : Frame) (p q : ℤ) : Prop := p < 0 ∨ fb.w ≤ p ∨ q < 0 ∨ fb.h ≤ q

/-- `fb2` has the same extent as `fb` and agrees with it on every
out-of-bounds pixel: the operation that produced `fb2` wrote nothing outside
`[0,W) × [0,H)` and never grew the framebuffer. -/
def SameOutside (fb fb2 : Frame) : Prop :=
  fb2.w = fb.w ∧ fb2.h = fb.h ∧ ∀ p q, OutBounds fb p q → fb2.data p q = fb.data p q

/-- Membership in the closed clip rectangle (for the segment-clip claim). -/
def inBox (x y mnx mny mxx mxy : ℚ) : Prop :=
  mnx ≤ x ∧ x ≤ mxx ∧ mny ≤ y ∧ y ≤ mxy

/-- The vector `v` solves every row equation of the 8×8 system `st`. -/
def SatLin (st : GJState) (v : ℕ → ℚ) : Prop :=
  ∀ i < 8, (∑ j ∈ Finset.range 8, st.M i j * v j) = st.r i

/-- The first `col` columns of the matrix are the identity columns. -/
def GJReduced (col : ℕ) (st : GJState) : Prop :=
  ∀ i < 8, ∀ c < col, st.M i c = if i = c then 1 else 0

/-- Loop invariant for the Cohen–Sutherland clip: the current endpoints sit
at parameters `a ≤ b` of the original segment, the parameter interval still
contains every parameter whose segment point is inside the box, and each
already-clipped boundary (flags) is respected on the whole interval. -/
def ClipInv (mnx mny mxx mxy x1 y1 x2 y2 : ℚ) (cL cR cB cT : Bool)
    (X1 Y1 X2 Y2 : ℚ) : Prop :=
  ∃ a b : ℚ, 0 ≤ a ∧ a ≤ b ∧ b ≤ 1 ∧
    X1 = x1 + a * (x2 - x1) ∧ Y1 = y1 + a * (y2 - y1) ∧
    X2 = x1 + b * (x2 - x1) ∧ Y2 = y1 + b * (y2 - y1) ∧
    (∀ t, 0 ≤ t → t ≤ 1 →
      inBox (x1 + t * (x2 - x1)) (y1 + t * (y2 - y1)) mnx mny mxx mxy → a ≤ t ∧ t ≤ b) ∧
    (cL = true → ∀ t, a ≤ t → t ≤ b → mnx ≤ x1 + t * (x2 - x1)) ∧
    (cR = true → ∀ t, a ≤ t → t ≤ b → x1 + t * (x2 - x1) ≤ mxx) ∧
    (cB = true → ∀ t, a ≤ t → t ≤ b → mny ≤ y1 + t * (y2 - y1)) ∧
    (cT = true → ∀ t, a ≤ t → t ≤ b → y1 + t * (y2 - y1) ≤ mxy)

/-- Correctness of one `clip_line` result for the original segment: accept
iff the segment meets the closed box; reject returns `(none, false)`; accept
returns in-box endpoints on the segment enclosing every in-box parameter. -/
def ClipLineOk (x1 y1 x2 y2 mnx mny mxx mxy : ℚ)
    (res : (Option (ℚ × ℚ × ℚ × ℚ)) × Bool) : Prop :=
  (res.2 = true ↔ ∃ t : ℚ, 0 ≤ t ∧ t ≤ 1 ∧
      inBox (x1 + t * (x2 - x1)) (y1 + t * (y2 - y1)) mnx mny mxx mxy) ∧
  (res.2 = false → res.1 = none) ∧
  (res.2 = true → ∃ a b : ℚ, 0 ≤ a ∧ a ≤ b ∧ b ≤ 1 ∧
      res.1 = some (x1 + a * (x2 - x1), y1 + a * (y2 - y1),
                    x1 + b * (x2 - x1), y1 + b * (y2 - y1)) ∧
      inBox (x1 + a * (x2 - x1)) (y1 + a * (y2 - y1)) mnx mny mxx mxy ∧
      inBox (x1 + b * (x2 - x1)) (y1 + b * (y2 - y1)) mnx mny mxx mxy ∧
      (∀ t, 0 ≤ t → t ≤ 1 →
        inBox (x1 + t * (x2 - x1)) (y1 + t * (y2 - y1)) mnx mny mxx mxy → a ≤ t ∧ t ≤ b))

/-! ## Theorems -/

/-- **C1.** The claim `T.inverse().xform(T.xform(v)).is_equal_approx(v)` for
every non-singular `T` fails on the code: for the 90° rotation
`T = (x = (0,1), y = (-1,0), origin = (0,0))` (determinant 1) and `v = (1,0)`
— every quantity exact in binary floating point — the source's `inverse`
builds the transposed adjugate, `T.inverse()` equals `T` itself, and the
round trip returns `(-1, 0) = -v`, which is not within `1e-5` of `v`. -/
theorem C1_inverse_roundtrip_fails :
    (Transform2D.mk ⟨0, 1⟩ ⟨-1, 0⟩ ⟨0, 0⟩).inverse
        = some (Transform2D.mk ⟨0, 1⟩ ⟨-1, 0⟩ ⟨0, 0⟩) ∧
      (Transform2D.mk ⟨0, 1⟩ ⟨-1, 0⟩ ⟨0, 0⟩).xform
        ((Transform2D.mk ⟨0, 1⟩ ⟨-1, 0⟩ ⟨0, 0⟩).xform ⟨1, 0⟩) = ⟨-1, 0⟩ ∧
      ¬ (Vector2.mk (-1) 0).is_equal_approx ⟨1, 0⟩ := by
  refine ⟨?_, ?_, ?_⟩ <;> with_unfolding_all decide

/-- **C2 (counterexample).** On the 1×1 framebuffer holding opaque blue
`0xFF0000FF`, `fill_rect(fb, 0,0,1,1, 0x80FF0000)` leaves alpha byte 254,
not 255 as the claim states: `out_a = 128 + ((255*127) >> 8) = 254`. -/
theorem C2_alpha_byte_254 :
    ¬ (((fill_rect ⟨1, 1, fun _ _ => 0xFF0000FF⟩ 0 0 1 1 0x80FF0000).data 0 0 >>> 24) &&& 0xFF
        = 255) := by
  with_unfolding_all decide

/-- **C2 (amended).** The half-alpha blend produces exactly the bytes of the
`>>8` formula: red `(255*128)>>8 = 127`, green 0, blue `(255*127)>>8 = 126`,
and alpha `128 + ((255*127)>>8) = 254`; the resulting pixel is
`0xFE7F007E`. -/
theorem C2_half_alpha_blend :
    (fill_rect ⟨1, 1, fun _ _ => 0xFF0000FF⟩ 0 0 1 1 0x80FF0000).data 0 0
        = pack_rgba 127 0 126 254 ∧
      (fill_rect ⟨1, 1, fun _ _ => 0xFF0000FF⟩ 0 0 1 1 0x80FF0000).data 0 0 = 0xFE7F007E := by
  refine ⟨?_, ?_⟩ <;> with_unfolding_all decide

/-- **C3.** The claimed AET invariant fails on the code: for the triangle
`(0,-2), (4,-2), (2,3)` on a 5-row buffer, both non-horizontal edges are
recorded with `y_start = -2` and `y_max = 3` (the C code stores them through
the out-of-bounds write `GET[-2]`), so at processed row `y = 0` an edge with
`y_start ≤ 0 < y_max` exists, yet the AET is empty at row 0 (and at every
other processed row). -/
theorem C3_aet_misses_straddling_edge :
    (∃ pr ∈ buildGET_filled [(0, -2), (4, -2), (2, 3)] 5, pr.1 ≤ 0 ∧ 0 < pr.2.y_max) ∧
      (0, []) ∈ draw_polygon_filled_trace [(0, -2), (4, -2), (2, 3)] 5 ∧
      ∀ pr ∈ draw_polygon_filled_trace [(0, -2), (4, -2), (2, 3)] 5, pr.2 = [] := by
  refine ⟨?_, ?_, ?_⟩ <;> with_unfolding_all decide

/-- The truncated, wrapped nearest-sampling index is the nonnegative floor
`⌊(u - ⌊u⌋) * w⌋ ∈ [0, w)` whenever `w ≥ 1`. -/
theorem nearest_index_bounds (w : ℤ) (u : ℚ) (hw : 1 ≤ w) :
    cint ((u - ⌊u⌋) * (w : ℚ)) = ⌊(u - ⌊u⌋) * (w : ℚ)⌋ ∧
      0 ≤ ⌊(u - ⌊u⌋) * (w : ℚ)⌋ ∧ ⌊(u - ⌊u⌋) * (w : ℚ)⌋ < w := by
  have hf0 : (0 : ℚ) ≤ u - ⌊u⌋ := sub_nonneg.mpr (Int.floor_le u)
  have hf1 : u - ⌊u⌋ < 1 := sub_lt_iff_lt_add.mpr (by
    have := Int.lt_floor_add_one u
    linarith)
  have hwQ : (0 : ℚ) < (w : ℚ) := by exact_mod_cast (by omega : (0 : ℤ) < w)
  have h0 : (0 : ℚ) ≤ (u - ⌊u⌋) * (w : ℚ) := mul_nonneg hf0 hwQ.le
  have hlt : (u - ⌊u⌋) * (w : ℚ) < (w : ℚ) := by
    calc (u - ⌊u⌋) * (w : ℚ) < 1 * (w : ℚ) := by exact mul_lt_mul_of_pos_right hf1 hwQ
    _ = (w : ℚ) := one_mul _
  refine ⟨?_, Int.floor_nonneg.mpr h0, Int.floor_lt.mpr (by exact_mod_cast hlt)⟩
  rw [cint, if_neg (not_lt.mpr h0)]

/-- **C7.** For every texture, declared extent `w × h` with `w, h ≥ 1` and all
coordinates, `sample_nearest` returns
`tex[⌊u'*w⌋ mod w, ⌊v'*h⌋ mod h]` where `u' = u - ⌊u⌋`, `v' = v - ⌊v⌋` are the
positively wrapped coordinates (in exact arithmetic the code's truncation and
clamps coincide with the floor-mod description). -/
theorem C7_sample_nearest_spec (tex : ℤ → ℤ → ℕ) (w h : ℤ) (u v : ℚ)
    (hw : 1 ≤ w) (hh : 1 ≤ h) :
    sample_nearest tex w h u v
      = tex (⌊(u - ⌊u⌋) * (w : ℚ)⌋ % w) (⌊(v - ⌊v⌋) * (h : ℚ)⌋ % h) := by
  obtain ⟨hxe, hx0, hxw⟩ := nearest_index_bounds w u hw
  obtain ⟨hye, hy0, hyh⟩ := nearest_index_bounds h v hh
  rw [sample_nearest]
  simp only [hxe, hye, if_neg (not_le.mpr hxw), if_neg (not_le.mpr hyh),
    if_neg (not_lt.mpr hx0), if_neg (not_lt.mpr hy0),
    Int.emod_eq_of_lt hx0 hxw, Int.emod_eq_of_lt hy0 hyh]

/-- **C7 (witness).** Instantiation at `w = h = 3`, `u = -1/4`, `v = 5/2` on a
concrete texture. -/
theorem C7_sample_nearest_spec_witness :
    (1 : ℤ) ≤ 3 ∧
      sample_nearest (fun i j => (100 * i + j).toNat) 3 3 (-1/4) (5/2)
        = (fun i j => ((100 * i + j : ℤ)).toNat)
            (⌊((-1/4 : ℚ) - ⌊(-1/4 : ℚ)⌋) * ((3 : ℤ) : ℚ)⌋ % 3)
            (⌊((5/2 : ℚ) - ⌊(5/2 : ℚ)⌋) * ((3 : ℤ) : ℚ)⌋ % 3) :=
  ⟨by decide,
    C7_sample_nearest_spec (fun i j => (100 * i + j).toNat) 3 3 (-1/4) (5/2)
      (by decide) (by decide)⟩

/-- Reading a list back through `getD` over `range` reproduces the list. -/
theorem map_getD_range {α : Type} (l : List α) (d : α) :
    (List.range l.length).map (fun i => l.getD i d) = l := by
  induction l with
  | nil => rfl
  | cons a t ih =>
    rw [List.length_cons, List.range_succ_eq_map, List.map_cons, List.map_map]
    refine congrArg₂ _ (by rfl) ?_
    have hc : ((fun i => (a :: t).getD i d) ∘ Nat.succ) = fun i => t.getD i d :=
      funext fun i => List.getD_cons_succ
    rw [hc, ih]

/-- `getD` of `replicate` is the replicated element or the (equal) default. -/
theorem getD_replicate_self {α : Type} (n i : ℕ) (a : α) :
    (List.replicate n a).getD i a = a := by
  induction n generalizing i with
  | zero => rfl
  | succ m ih => cases i with
    | zero => rfl
    | succ j => rw [List.replicate_succ, List.getD_cons_succ]; exact ih j

/-- A Sutherland–Hodgman pass over vertices that all lie on the inside of its
boundary emits exactly the input, in order (fold form). -/
theorem clip_axis_fold_inside (boundary : ℚ) (axis_idx : ℕ) (sign : ℚ)
    (l : List Vertex) :
    ∀ (acc : List Vertex) (p1 : Vertex),
      (if axis_idx = 0 then p1.x else p1.y) * sign ≥ boundary * sign →
      (∀ p ∈ l, (if axis_idx = 0 then p.x else p.y) * sign ≥ boundary * sign) →
      (l.foldl (clip_axis_step boundary axis_idx sign) (acc, p1)).1 = acc ++ l := by
  induction l with
  | nil => intro acc p1 _ _; simp
  | cons p2 t ih =>
    intro acc p1 hp1 hin
    have h2 := hin p2 (List.mem_cons_self p2 t)
    rw [List.foldl_cons]
    have hstep : clip_axis_step boundary axis_idx sign (acc, p1) p2 = (acc ++ [p2], p2) := by
      simp only [clip_axis_step]
      rw [if_pos ⟨hp1, h2⟩]
    rw [hstep, ih (acc ++ [p2]) p2 h2 (fun p hp => hin p (List.mem_cons_of_mem _ hp)),
      List.append_assoc]
    rfl

/-- A Sutherland–Hodgman pass over vertices that all lie on the inside of its
boundary returns the input unchanged. -/
theorem clip_axis_of_inside (inp : List Vertex) (boundary : ℚ) (axis_idx : ℕ) (sign : ℚ)
    (hin : ∀ p ∈ inp, (if axis_idx = 0 then p.x else p.y) * sign ≥ boundary * sign) :
    clip_axis inp boundary axis_idx sign = inp := by
  rw [clip_axis]
  rcases hlast : inp.getLast? with _ | last
  · rw [List.getLast?_eq_none_iff.mp hlast]
  · have hmem : last ∈ inp := List.mem_of_mem_getLast? hlast
    exact clip_axis_fold_inside boundary axis_idx sign inp [] last (hin last hmem) hin

/-- Interpolating between two zero UVs yields a zero UV. -/
theorem clip_intersect_uv_zero (p1 p2 : Vertex) (b : ℚ) (a : ℕ)
    (h1 : p1.u = 0 ∧ p1.v = 0) (h2 : p2.u = 0 ∧ p2.v = 0) :
    (clip_intersect p1 p2 b a).u = 0 ∧ (clip_intersect p1 p2 b a).v = 0 := by
  simp only [clip_intersect]
  split_ifs <;> first
    | exact h1
    | (constructor <;> simp [h1.1, h1.2, h2.1, h2.2])

/-- The second component of a clip step is the new `p1`, namely `p2`. -/
theorem clip_axis_step_snd (b : ℚ) (a : ℕ) (s : ℚ) (st : List Vertex × Vertex) (p2 : Vertex) :
    (clip_axis_step b a s st p2).2 = p2 := rfl

/-- Everything a clip step emits is an old output, the new vertex `p2`, or the
boundary intersection of the edge `(p1, p2)`. -/
theorem clip_axis_step_mem (b : ℚ) (a : ℕ) (s : ℚ) (st : List Vertex × Vertex)
    (p2 q : Vertex) (hq : q ∈ (clip_axis_step b a s st p2).1) :
    q ∈ st.1 ∨ q = p2 ∨ q = clip_intersect st.2 p2 b a := by
  simp only [clip_axis_step, List.mem_append] at hq
  rcases hq with hq | hq
  · exact Or.inl hq
  · right
    split_ifs at hq <;>
      simp only [List.mem_singleton, List.mem_cons, List.not_mem_nil, or_false] at hq <;>
      tauto

/-- A Sutherland–Hodgman pass emits only zero-UV vertices when fed zero-UV
vertices (fold form). -/
theorem clip_axis_fold_uv_zero (boundary : ℚ) (axis_idx : ℕ) (sign : ℚ)
    (l : List Vertex) :
    ∀ (acc : List Vertex) (p1 : Vertex),
      (∀ q ∈ acc, q.u = 0 ∧ q.v = 0) → (p1.u = 0 ∧ p1.v = 0) →
      (∀ p ∈ l, p.u = 0 ∧ p.v = 0) →
      ∀ q ∈ (l.foldl (clip_axis_step boundary axis_idx sign) (acc, p1)).1,
        q.u = 0 ∧ q.v = 0 := by
  induction l with
  | nil => intro acc p1 hacc _ _ q hq; exact hacc q hq
  | cons p2 t ih =>
    intro acc p1 hacc hp1 hl q hq
    have h2 : p2.u = 0 ∧ p2.v = 0 := hl p2 (List.mem_cons_self p2 t)
    rw [List.foldl_cons, ← Prod.mk.eta (p := clip_axis_step boundary axis_idx sign (acc, p1) p2)]
      at hq
    refine ih _ _ ?_ ?_ (fun p hp => hl p (List.mem_cons_of_mem _ hp)) q hq
    · intro r hr
      rcases clip_axis_step_mem boundary axis_idx sign (acc, p1) p2 r hr with h | h | h
      · exact hacc r h
      · rw [h]; exact h2
      · rw [h]; exact clip_intersect_uv_zero p1 p2 _ _ hp1 h2
    · rw [clip_axis_step_snd]; exact h2

/-- A Sutherland–Hodgman pass emits only zero-UV vertices when fed zero-UV
vertices. -/
theorem clip_axis_uv_zero (inp : List Vertex) (boundary : ℚ) (axis_idx : ℕ) (sign : ℚ)
    (hz : ∀ p ∈ inp, p.u = 0 ∧ p.v = 0) :
    ∀ q ∈ clip_axis inp boundary axis_idx sign, q.u = 0 ∧ q.v = 0 := by
  rw [clip_axis]
  rcases hlast : inp.getLast? with _ | last
  · intro q hq; cases hq
  · exact clip_axis_fold_uv_zero boundary axis_idx sign inp [] last (by intro q hq; cases hq)
      (hz last (List.mem_of_mem_getLast? hlast)) hz

/-- **C8.** A polygon of `n ≥ 3` vertices lying in the closed clip window is
returned unchanged by `Clipper.clip_polygon` — same vertices, same order — and
the matching input UVs come back unchanged too. -/
theorem C8_clip_polygon_inside_identity (points uvl : List (ℚ × ℚ)) (mnx mny mxx mxy : ℚ)
    (h3 : 3 ≤ points.length) (hlen : uvl.length = points.length)
    (hin : ∀ p ∈ points, mnx ≤ p.1 ∧ p.1 ≤ mxx ∧ mny ≤ p.2 ∧ p.2 ≤ mxy) :
    clip_polygon points (some uvl) mnx mny mxx mxy = (points, uvl) := by
  have hn0 : ¬ points.length = 0 := by omega
  simp only [clip_polygon, hlen, decide_True, if_true, hn0, if_false, Option.getD_some]
  set buf : List Vertex := (List.range points.length).map (fun i =>
    (⟨(points.getD i (0, 0)).1, (points.getD i (0, 0)).2,
      (uvl.getD i (0, 0)).1, (uvl.getD i (0, 0)).2⟩ : Vertex)) with hbuf
  have hmem : ∀ q ∈ buf, mnx ≤ q.x ∧ q.x ≤ mxx ∧ mny ≤ q.y ∧ q.y ≤ mxy := by
    intro q hq
    rw [hbuf, List.mem_map] at hq
    obtain ⟨i, hi, rfl⟩ := hq
    have hilt : i < points.length := List.mem_range.mp hi
    have hp : points.getD i (0, 0) ∈ points := by
      rw [List.getD_eq_getElem?_getD, List.getElem?_eq_getElem hilt, Option.getD_some]
      exact List.getElem_mem hilt
    exact hin _ hp
  have pass1 : clip_axis buf mnx 0 1 = buf :=
    clip_axis_of_inside buf mnx 0 1 (by
      intro p hp; simp only [if_pos rfl, mul_one]; exact (hmem p hp).1)
  have pass2 : clip_axis buf mxx 0 (-1) = buf :=
    clip_axis_of_inside buf mxx 0 (-1) (by
      intro p hp
      simp only [if_pos rfl, mul_neg_one, ge_iff_le, neg_le_neg_iff]
      exact (hmem p hp).2.1)
  have pass3 : clip_axis buf mny 1 1 = buf :=
    clip_axis_of_inside buf mny 1 1 (by
      intro p hp; simp only [one_ne_zero, if_neg, mul_one]
      exact (hmem p hp).2.2.1)
  have pass4 : clip_axis buf mxy 1 (-1) = buf :=
    clip_axis_of_inside buf mxy 1 (-1) (by
      intro p hp
      simp only [one_ne_zero, if_neg, mul_neg_one, ge_iff_le, neg_le_neg_iff]
      exact (hmem p hp).2.2.2)
  rw [pass1, pass2, pass3, pass4]
  have hlenbuf : buf.length = points.length := by
    rw [hbuf, List.length_map, List.length_range]
  rw [if_neg (by omega)]
  refine Prod.ext ?_ ?_
  · show buf.map (fun p => (p.x, p.y)) = points
    rw [hbuf, List.map_map]
    have hco : ((fun p : Vertex => (p.x, p.y)) ∘ (fun i =>
        (⟨(points.getD i (0, 0)).1, (points.getD i (0, 0)).2,
          (uvl.getD i (0, 0)).1, (uvl.getD i (0, 0)).2⟩ : Vertex)))
        = fun i => points.getD i (0, 0) := by
      funext i; simp
    rw [hco, map_getD_range]
  · show buf.map (fun p => (p.u, p.v)) = uvl
    rw [hbuf, List.map_map]
    have hco : ((fun p : Vertex => (p.u, p.v)) ∘ (fun i =>
        (⟨(points.getD i (0, 0)).1, (points.getD i (0, 0)).2,
          (uvl.getD i (0, 0)).1, (uvl.getD i (0, 0)).2⟩ : Vertex)))
        = fun i => uvl.getD i (0, 0) := by
      funext i; simp
    rw [hco, ← hlen, map_getD_range]

/-- **C8 (witness).** A triangle inside the window `[0,4]²` survives
unchanged. -/
theorem C8_clip_polygon_inside_identity_witness :
    clip_polygon [(1, 1), (3, 1), (2, 2)] (some [(0, 0), (1, 0), (1, 1)]) 0 0 4 4
      = ([(1, 1), (3, 1), (2, 2)], [(0, 0), (1, 0), (1, 1)]) :=
  C8_clip_polygon_inside_identity [(1, 1), (3, 1), (2, 2)] [(0, 0), (1, 0), (1, 1)] 0 0 4 4
    (by decide) (by decide)
    (by intro p hp; fin_cases hp <;> refine ⟨by norm_num, by norm_num, by norm_num, by norm_num⟩)

/-- When the `has_uvs` flag computes to `false`, `clip_polygon` behaves as if
handed all-zero UVs of matching length, and outputs only zero UVs. -/
theorem clip_polygon_zero_uvs (points : List (ℚ × ℚ)) (uvs : Option (List (ℚ × ℚ)))
    (mnx mny mxx mxy : ℚ) (hn0 : ¬ points.length = 0)
    (hfalse : (match uvs with
      | some l => decide (l.length = points.length)
      | none => false) = false) :
    clip_polygon points uvs mnx mny mxx mxy
        = clip_polygon points (some (List.replicate points.length (0, 0))) mnx mny mxx mxy ∧
      ∀ q ∈ (clip_polygon points uvs mnx mny mxx mxy).2, q = ((0 : ℚ), (0 : ℚ)) := by
  have hbufz : ∀ q ∈ (List.range points.length).map (fun i =>
      (⟨(points.getD i (0, 0)).1, (points.getD i (0, 0)).2, 0, 0⟩ : Vertex)),
      q.u = 0 ∧ q.v = 0 := by
    intro q hq
    obtain ⟨i, _, rfl⟩ := List.mem_map.mp hq
    exact ⟨rfl, rfl⟩
  constructor
  · simp only [clip_polygon, hfalse, Bool.false_eq_true, if_false, List.length_replicate,
      decide_True, if_true, Option.getD_some, getD_replicate_self, hn0]
  · intro q hq
    simp only [clip_polygon, hfalse, Bool.false_eq_true, if_false, hn0] at hq
    rw [apply_ite Prod.snd] at hq
    obtain ⟨p, hp, rfl⟩ := List.mem_map.mp (List.mem_ite_nil_left.mp hq).2
    have z1 := clip_axis_uv_zero _ mnx 0 1 hbufz
    have z2 := clip_axis_uv_zero _ mxx 0 (-1) z1
    have z3 := clip_axis_uv_zero _ mny 1 1 z2
    have z4 := clip_axis_uv_zero _ mxy 1 (-1) z3
    have hz := z4 p hp
    rw [hz.1, hz.2]

/-- **C10.** With `input_uvs` absent (`None`) or of a length different from
the vertex list, `Clipper.clip_polygon` does not raise: it proceeds treating
every vertex UV as `(0,0)` — it returns exactly what it returns when handed
all-zero UVs of matching length — and every UV value it returns is the zero
pair (interpolation of those zeros). -/
theorem C10_clip_polygon_uv_mismatch (points : List (ℚ × ℚ)) (uvs : Option (List (ℚ × ℚ)))
    (mnx mny mxx mxy : ℚ) (hne : points ≠ [])
    (hmiss : uvs = none ∨ ∃ l, uvs = some l ∧ l.length ≠ points.length) :
    clip_polygon points uvs mnx mny mxx mxy
        = clip_polygon points (some (List.replicate points.length (0, 0))) mnx mny mxx mxy ∧
      ∀ q ∈ (clip_polygon points uvs mnx mny mxx mxy).2, q = ((0 : ℚ), (0 : ℚ)) := by
  have hn0 : ¬ points.length = 0 := fun h => hne (List.length_eq_zero.mp h)
  rcases hmiss with rfl | ⟨l, rfl, hl⟩
  · exact clip_polygon_zero_uvs points none mnx mny mxx mxy hn0 rfl
  · exact clip_polygon_zero_uvs points (some l) mnx mny mxx mxy hn0 (by
      show decide (l.length = points.length) = false
      exact decide_eq_false hl)

/-- **C10 (witness).** A triangle with `input_uvs = None`. -/
theorem C10_clip_polygon_uv_mismatch_witness :
    clip_polygon [((1 : ℚ), (1 : ℚ)), (3, 1), (2, 2)] none 0 0 4 4
        = clip_polygon [((1 : ℚ), (1 : ℚ)), (3, 1), (2, 2)]
            (some (List.replicate 3 (0, 0))) 0 0 4 4 ∧
      ∀ q ∈ (clip_polygon [((1 : ℚ), (1 : ℚ)), (3, 1), (2, 2)] none 0 0 4 4).2,
        q = ((0 : ℚ), (0 : ℚ)) :=
  C10_clip_polygon_uv_mismatch [(1, 1), (3, 1), (2, 2)] none 0 0 4 4
    (by decide) (Or.inl rfl)

/-- **C9.** On a 5×5 framebuffer with arbitrary initial contents,
`draw_line(fb, 0,0, 4,2, 0xFF00FF00)` blends the color into exactly the five
pixels `(0,0), (1,0), (2,1), (3,1), (4,2)` and leaves every other pixel
untouched. -/
theorem C9_bresenham_trace (data : ℤ → ℤ → ℕ) (x y : ℤ) :
    (draw_line ⟨5, 5, data⟩ 0 0 4 2 0xFF00FF00).data x y =
      if (x, y) ∈ ([(0, 0), (1, 0), (2, 1), (3, 1), (4, 2)] : List (ℤ × ℤ))
      then blend_colors 0xFF00FF00 (data x y) else data x y := by
  have h1 : draw_line ⟨5, 5, data⟩ 0 0 4 2 0xFF00FF00
      = rasterize_line_loop 4 2 1 1 4 2 0xFF00FF00 7 ⟨5, 5, data⟩ 0 0 2 := by
    rw [draw_line, rasterize_line_c]
    norm_num
    rfl
  rw [h1]
  simp only [show (7 : ℕ) = 6 + 1 from rfl, rasterize_line_loop]
  norm_num [setPix]
  split_ifs <;> simp_all
  exfalso
  omega

/-- `SameOutside` is reflexive. -/
theorem sameOutside_refl (fb : Frame) : SameOutside fb fb := ⟨rfl, rfl, fun _ _ _ => rfl⟩

/-- `SameOutside` composes. -/
theorem sameOutside_trans {fb1 fb2 fb3 : Frame} (h12 : SameOutside fb1 fb2)
    (h23 : SameOutside fb2 fb3) : SameOutside fb1 fb3 := by
  obtain ⟨hw, hh, hd⟩ := h12
  obtain ⟨hw2, hh2, hd2⟩ := h23
  refine ⟨hw2.trans hw, hh2.trans hh, fun p q hout => ?_⟩
  have hout2 : OutBounds fb2 p q := by
    show p < 0 ∨ fb2.w ≤ p ∨ q < 0 ∨ fb2.h ≤ q
    rw [hw, hh]
    exact hout
  rw [hd2 p q hout2, hd p q hout]

/-- An in-bounds store writes nothing outside the framebuffer. -/
theorem setPix_sameOutside (fb : Frame) (x y : ℤ) (c : ℕ)
    (hx : 0 ≤ x) (hxw : x < fb.w) (hy : 0 ≤ y) (hyh : y < fb.h) :
    SameOutside fb (setPix fb x y c) := by
  refine ⟨rfl, rfl, fun p q hout => ?_⟩
  show (if p = x ∧ q = y then c else fb.data p q) = fb.data p q
  rw [if_neg]
  rintro ⟨rfl, rfl⟩
  rcases hout with hc | hc | hc | hc <;> omega

/-- A fold whose every step (on a frame of the original extent) writes only
in bounds writes only in bounds. -/
theorem foldl_sameOutside {α : Type} (f : Frame → α → Frame) :
    ∀ (l : List α) (fb : Frame),
      (∀ fb2 : Frame, fb2.w = fb.w → fb2.h = fb.h → ∀ a ∈ l, SameOutside fb2 (f fb2 a)) →
      SameOutside fb (l.foldl f fb) := by
  intro l
  induction l with
  | nil => intro fb _; exact sameOutside_refl fb
  | cons a t ih =>
    intro fb hstep
    rw [List.foldl_cons]
    have h1 : SameOutside fb (f fb a) := hstep fb rfl rfl a (List.mem_cons_self a t)
    have hrec : SameOutside (f fb a) (t.foldl f (f fb a)) := by
      refine ih (f fb a) (fun fb2 hw2 hh2 b hb => ?_)
      exact hstep fb2 (hw2.trans h1.1) (hh2.trans h1.2.1) b (List.mem_cons_of_mem _ hb)
    exact sameOutside_trans h1 hrec

/-- Fold variant whose step needs no context at all. -/
theorem foldl_sameOutside_simple {α : Type} (f : Frame → α → Frame)
    (hstep : ∀ (fb : Frame) (a : α), SameOutside fb (f fb a)) (l : List α) (fb : Frame) :
    SameOutside fb (l.foldl f fb) :=
  foldl_sameOutside f l fb (fun fb2 _ _ a _ => hstep fb2 a)

/-- Membership in the embedded `range(a, b)`. -/
theorem mem_intRange {a b x : ℤ} : x ∈ intRange a b ↔ a ≤ x ∧ x < b := by
  constructor
  · intro hx
    rw [intRange] at hx
    obtain ⟨k, hk, hkx⟩ := List.mem_map.mp hx
    rw [List.mem_range] at hk
    omega
  · intro hx
    rw [intRange]
    refine List.mem_map.mpr ⟨(x - a).toNat, ?_, ?_⟩
    · rw [List.mem_range]; omega
    · omega

/-- `draw_pixel_c` never writes out of bounds. -/
theorem draw_pixel_c_sameOutside (fb : Frame) (x y : ℤ) (color : ℕ) :
    SameOutside fb (draw_pixel_c fb x y color) := by
  rw [draw_pixel_c]
  split_ifs with hg
  · exact setPix_sameOutside fb x y _ hg.1 hg.2.1 hg.2.2.1 hg.2.2.2
  · exact sameOutside_refl fb

/-- `_plot` never writes out of bounds. -/
theorem plot_c_sameOutside (fb : Frame) (x y : ℤ) (color : ℕ) :
    SameOutside fb (plot_c fb x y color) := by
  rw [plot_c]
  split_ifs with hg
  · exact setPix_sameOutside fb x y _ hg.1 hg.2.1 hg.2.2.1 hg.2.2.2
  · exact sameOutside_refl fb

/-- `draw_points` never writes out of bounds. -/
theorem draw_points_sameOutside (fb : Frame) (points : List (ℚ × ℚ)) (color : ℕ) :
    SameOutside fb (draw_points fb points color) := by
  rw [draw_points]
  refine foldl_sameOutside_simple _ (fun fa v => ?_) points fb
  dsimp only
  split_ifs with hg
  · exact setPix_sameOutside fa _ _ _ hg.1 hg.2.1 hg.2.2.1 hg.2.2.2
  · exact sameOutside_refl fa

/-- The Bresenham loop never writes out of bounds. -/
theorem rasterize_line_loop_sameOutside (dx dy sx sy x1 y1 : ℤ) (color : ℕ) :
    ∀ (fuel : ℕ) (fb : Frame) (x0 y0 err : ℤ),
      SameOutside fb (rasterize_line_loop dx dy sx sy x1 y1 color fuel fb x0 y0 err) := by
  intro fuel
  induction fuel with
  | zero => intro fb x0 y0 err; exact sameOutside_refl fb
  | succ n ih =>
    intro fb x0 y0 err
    simp only [rasterize_line_loop]
    set fb1 := (if 0 ≤ x0 ∧ x0 < fb.w ∧ 0 ≤ y0 ∧ y0 < fb.h then
        setPix fb x0 y0 (blend_colors color (fb.data x0 y0)) else fb) with hfb1
    have h1 : SameOutside fb fb1 := by
      rw [hfb1]
      split_ifs with hg
      · exact setPix_sameOutside fb x0 y0 _ hg.1 hg.2.1 hg.2.2.1 hg.2.2.2
      · exact sameOutside_refl fb
    split_ifs <;> first
      | exact h1
      | exact sameOutside_trans h1 (ih _ _ _ _)

/-- `rasterize_line_c` never writes out of bounds. -/
theorem rasterize_line_c_sameOutside (fb : Frame) (x0 y0 x1 y1 : ℤ) (color : ℕ) :
    SameOutside fb (rasterize_line_c fb x0 y0 x1 y1 color) :=
  rasterize_line_loop_sameOutside _ _ _ _ _ _ color _ fb x0 y0 _

/-- `_scanline_h` never writes out of bounds. -/
theorem scanline_h_sameOutside (fb : Frame) (x1 x2 y : ℤ) (color : ℕ) :
    SameOutside fb (scanline_h fb x1 x2 y color) := by
  by_cases hy : y < 0 ∨ y ≥ fb.h
  · simp only [scanline_h]
    rw [if_pos hy]
    exact sameOutside_refl fb
  · simp only [scanline_h]
    rw [if_neg hy]
    set A := (if x1 < 0 then (0 : ℤ) else x1) with hA
    set B := (if x2 ≥ fb.w then fb.w - 1 else x2) with hB
    have hA0 : 0 ≤ A := by rw [hA]; split_ifs <;> omega
    have hBw : B < fb.w ∨ fb.w ≤ 0 := by rw [hB]; split_ifs <;> omega
    split_ifs with hab
    · exact sameOutside_refl fb
    · refine foldl_sameOutside _ _ fb (fun fb2 hw2 hh2 i hi => ?_)
      rw [mem_intRange] at hi
      exact setPix_sameOutside fb2 i y _ (by omega) (by omega) (by omega) (by omega)

/-- The filled-circle loop never writes out of bounds. -/
theorem circle_filled_loop_sameOutside (cx cy : ℤ) (color : ℕ) :
    ∀ (fuel : ℕ) (fb : Frame) (x y d : ℤ),
      SameOutside fb (circle_filled_loop cx cy color fuel fb x y d) := by
  intro fuel
  induction fuel with
  | zero => intro fb x y d; exact sameOutside_refl fb
  | succ n ih =>
    intro fb x y d
    simp only [circle_filled_loop]
    split_ifs with hyx hd
    · exact sameOutside_refl fb
    all_goals
      refine sameOutside_trans ?_ (ih _ _ _ _)
      refine sameOutside_trans ?_ (scanline_h_sameOutside _ _ _ _ _)
      refine sameOutside_trans ?_ (scanline_h_sameOutside _ _ _ _ _)
      refine sameOutside_trans ?_ (scanline_h_sameOutside _ _ _ _ _)
      exact scanline_h_sameOutside _ _ _ _ _

/-- `draw_circle_filled` never writes out of bounds. -/
theorem draw_circle_filled_sameOutside (fb : Frame) (cx cy r : ℤ) (color : ℕ) :
    SameOutside fb (draw_circle_filled fb cx cy r color) :=
  circle_filled_loop_sameOutside cx cy color _ fb 0 r (3 - 2 * r)

/-- The circle-outline loop never writes out of bounds. -/
theorem circle_outline_loop_sameOutside (cx cy : ℤ) (color : ℕ) :
    ∀ (fuel : ℕ) (fb : Frame) (x y d : ℤ),
      SameOutside fb (circle_outline_loop cx cy color fuel fb x y d) := by
  intro fuel
  induction fuel with
  | zero => intro fb x y d; exact sameOutside_refl fb
  | succ n ih =>
    intro fb x y d
    simp only [circle_outline_loop]
    split_ifs with hyx hd
    · exact sameOutside_refl fb
    all_goals
      refine sameOutside_trans ?_ (ih _ _ _ _)
      refine sameOutside_trans ?_ (plot_c_sameOutside _ _ _ _)
      refine sameOutside_trans ?_ (plot_c_sameOutside _ _ _ _)
      refine sameOutside_trans ?_ (plot_c_sameOutside _ _ _ _)
      refine sameOutside_trans ?_ (plot_c_sameOutside _ _ _ _)
      refine sameOutside_trans ?_ (plot_c_sameOutside _ _ _ _)
      refine sameOutside_trans ?_ (plot_c_sameOutside _ _ _ _)
      refine sameOutside_trans ?_ (plot_c_sameOutside _ _ _ _)
      exact plot_c_sameOutside _ _ _ _

/-- `draw_circle_outline` never writes out of bounds. -/
theorem draw_circle_outline_sameOutside (fb : Frame) (cx cy r : ℤ) (color : ℕ) :
    SameOutside fb (draw_circle_outline fb cx cy r color) :=
  circle_outline_loop_sameOutside cx cy color _ fb 0 r (3 - 2 * r)

/-- `rasterize_rect_filled_c` never writes out of bounds. -/
theorem rasterize_rect_filled_c_sameOutside (fb : Frame) (x y w h : ℤ) (color : ℕ) :
    SameOutside fb (rasterize_rect_filled_c fb x y w h color) := by
  simp only [rasterize_rect_filled_c]
  set X := (if x < 0 then (0 : ℤ) else x) with hX
  set W1 := (if x < 0 then w + x else w) with hW1
  set Y := (if y < 0 then (0 : ℤ) else y) with hY
  set H1 := (if y < 0 then h + y else h) with hH1
  set W2 := (if X + W1 > fb.w then fb.w - X else W1) with hW2
  set H2 := (if Y + H1 > fb.h then fb.h - Y else H1) with hH2
  have hX0 : 0 ≤ X := by rw [hX]; split_ifs <;> omega
  have hY0 : 0 ≤ Y := by rw [hY]; split_ifs <;> omega
  have hXW : X + W2 ≤ fb.w ∨ W2 = W1 ∧ X + W1 ≤ fb.w := by
    rw [hW2]; split_ifs <;> omega
  have hYH : Y + H2 ≤ fb.h ∨ H2 = H1 ∧ Y + H1 ≤ fb.h := by
    rw [hH2]; split_ifs <;> omega
  have hXW2 : X + W2 ≤ fb.w := by rcases hXW with hc | ⟨hc1, hc2⟩ <;> omega
  have hYH2 : Y + H2 ≤ fb.h := by rcases hYH with hc | ⟨hc1, hc2⟩ <;> omega
  split_ifs with hret ha1 ha2
  · exact sameOutside_refl fb
  · refine foldl_sameOutside _ _ fb (fun fb2 hw2 hh2 i hi => ?_)
    rw [mem_intRange] at hi
    refine foldl_sameOutside _ _ fb2 (fun fb3 hw3 hh3 j hj => ?_)
    rw [mem_intRange] at hj
    exact setPix_sameOutside fb3 i j _ (by omega) (by omega) (by omega) (by omega)
  · refine foldl_sameOutside _ _ fb (fun fb2 hw2 hh2 i hi => ?_)
    rw [mem_intRange] at hi
    refine foldl_sameOutside _ _ fb2 (fun fb3 hw3 hh3 j hj => ?_)
    rw [mem_intRange] at hj
    exact setPix_sameOutside fb3 i j _ (by omega) (by omega) (by omega) (by omega)
  · exact sameOutside_refl fb

/-- `fill_rect` never writes out of bounds. -/
theorem fill_rect_sameOutside (fb : Frame) (x y w h : ℤ) (color : ℕ) :
    SameOutside fb (fill_rect fb x y w h color) :=
  rasterize_rect_filled_c_sameOutside fb x y w h color

/-- `draw_rect_outline` never writes out of bounds. -/
theorem draw_rect_outline_sameOutside (fb : Frame) (x y w h : ℤ) (color : ℕ) (t : ℤ) :
    SameOutside fb (draw_rect_outline fb x y w h color t) := by
  rw [draw_rect_outline]
  exact sameOutside_trans (rasterize_rect_filled_c_sameOutside _ _ _ _ _ _)
    (sameOutside_trans (rasterize_rect_filled_c_sameOutside _ _ _ _ _ _)
      (sameOutside_trans (rasterize_rect_filled_c_sameOutside _ _ _ _ _ _)
        (rasterize_rect_filled_c_sameOutside _ _ _ _ _ _)))

/-- The triangle span loop stays inside the buffer (row `y` given in range). -/
theorem tri_span_sameOutside (tex : ℤ → ℤ → ℕ) (tw th : ℤ) (bil : Bool) (y : ℤ)
    (au av bu bv t_step : ℚ) :
    ∀ (l : List ℤ) (fb : Frame) (t : ℚ), 0 ≤ y → y < fb.h →
      SameOutside fb (tri_span tex tw th bil y au av bu bv t_step l fb t) := by
  intro l
  induction l with
  | nil => intro fb t _ _; exact sameOutside_refl fb
  | cons xx rest ih =>
    intro fb t hy0 hyh
    simp only [tri_span]
    have hstep : ∀ c : ℕ, SameOutside fb (if 0 ≤ xx ∧ xx < fb.w then setPix fb xx y c else fb) := by
      intro c
      split_ifs with hg
      · exact setPix_sameOutside fb xx y c hg.1 hg.2 hy0 hyh
      · exact sameOutside_refl fb
    refine sameOutside_trans (hstep _) (ih _ _ hy0 ?_)
    split_ifs <;> exact hyh

/-- One triangle row stays inside the buffer. -/
theorem tri_row_body_sameOutside (tex : ℤ → ℤ → ℕ) (tw th : ℤ) (bil : Bool)
    (x0 y0 u0 v0 x1 y1 u1 v1 x2 y2 u2 v2 : ℚ) (total_height : ℤ) (i y : ℤ) (fb : Frame)
    (hy0 : 0 ≤ y) (hyh : y < fb.h) :
    SameOutside fb (tri_row_body tex tw th bil x0 y0 u0 v0 x1 y1 u1 v1 x2 y2 u2 v2
      total_height i y fb) := by
  simp only [tri_row_body]
  exact tri_span_sameOutside tex tw th bil y _ _ _ _ _ _ fb 0 hy0 hyh

/-- The triangle row loop stays inside the buffer. -/
theorem tri_rows_sameOutside (tex : ℤ → ℤ → ℕ) (tw th : ℤ) (bil : Bool)
    (x0 y0 u0 v0 x1 y1 u1 v1 x2 y2 u2 v2 : ℚ) (total_height : ℤ) :
    ∀ (count : ℕ) (i : ℤ) (fb : Frame),
      SameOutside fb (tri_rows tex tw th bil x0 y0 u0 v0 x1 y1 u1 v1 x2 y2 u2 v2
        total_height count i fb) := by
  intro count
  induction count with
  | zero => intro i fb; exact sameOutside_refl fb
  | succ n ih =>
    intro i fb
    simp only [tri_rows]
    split_ifs with hbreak hskip
    · exact sameOutside_refl fb
    · exact ih (i + 1) fb
    · refine sameOutside_trans (tri_row_body_sameOutside tex tw th bil
        x0 y0 u0 v0 x1 y1 u1 v1 x2 y2 u2 v2 total_height i (cint y0 + i) fb
        (by omega) (by omega)) ?_
      exact ih (i + 1) _

/-- `draw_triangle_textured` never writes out of bounds. -/
theorem draw_triangle_textured_sameOutside (fb : Frame) (verts uvs : List (ℚ × ℚ))
    (tex : ℤ → ℤ → ℕ) (tw th : ℤ) (bil : Bool) :
    SameOutside fb (draw_triangle_textured fb verts uvs tex tw th bil) := by
  simp only [draw_triangle_textured]
  split_ifs with h0
  · exact sameOutside_refl fb
  · exact tri_rows_sameOutside tex tw th bil _ _ _ _ _ _ _ _ _ _ _ _ _ _ _ fb

/-- A polygon fill span stays inside the buffer (row `y` given in range). -/
theorem fill_span_sameOutside (fb : Frame) (e1 e2 : AEdge) (y : ℤ) (color : ℕ)
    (hy0 : 0 ≤ y) (hyh : y < fb.h) :
    SameOutside fb (fill_span fb e1 e2 y color) := by
  simp only [fill_span]
  set XS := (if cint e1.x < 0 then (0 : ℤ) else cint e1.x) with hXS
  set XE := (if cint e2.x > fb.w then fb.w else cint e2.x) with hXE
  have hXS0 : 0 ≤ XS := by rw [hXS]; split_ifs <;> omega
  have hXEw : XE ≤ fb.w := by rw [hXE]; split_ifs <;> omega
  split_ifs with hlt
  · refine foldl_sameOutside _ _ fb (fun fb2 hw2 hh2 k hk => ?_)
    rw [mem_intRange] at hk
    exact setPix_sameOutside fb2 k y _ (by omega) (by omega) (by omega) (by omega)
  · exact sameOutside_refl fb

/-- One filled-polygon sweep row stays inside the buffer. -/
theorem fill_row_step_sameOutside (get : ℤ → List AEdge) (edges_count : ℕ) (color : ℕ)
    (st : Frame × List AEdge) (y : ℤ) (hy0 : 0 ≤ y) (hyh : y < st.1.h) :
    SameOutside st.1 (fill_row_step get edges_count color st y).1 := by
  simp only [fill_row_step]
  refine foldl_sameOutside _ _ st.1 (fun fb2 hw2 hh2 pr hpr => ?_)
  exact fill_span_sameOutside fb2 pr.1 pr.2 y color hy0 (by omega)

/-- The filled-polygon sweep stays inside the buffer when every processed row
is in `[0, H)`. -/
theorem fill_sweep_fold_sameOutside (get : ℤ → List AEdge) (edges_count : ℕ) (color : ℕ) :
    ∀ (rows : List ℤ) (fb : Frame) (aet : List AEdge),
      (∀ r ∈ rows, 0 ≤ r ∧ r < fb.h) →
      SameOutside fb ((rows.foldl (fill_row_step get edges_count color) (fb, aet)).1) := by
  intro rows
  induction rows with
  | nil => intro fb aet _; exact sameOutside_refl fb
  | cons r t ih =>
    intro fb aet hrows
    rw [List.foldl_cons]
    have hr := hrows r (List.mem_cons_self r t)
    have h1 : SameOutside fb (fill_row_step get edges_count color (fb, aet) r).1 :=
      fill_row_step_sameOutside get edges_count color (fb, aet) r hr.1 hr.2
    rw [← Prod.mk.eta (p := fill_row_step get edges_count color (fb, aet) r)]
    refine sameOutside_trans h1 (ih _ _ (fun s hs => ?_))
    have hsb := hrows s (List.mem_cons_of_mem _ hs)
    have hpres : (fill_row_step get edges_count color (fb, aet) r).1.h = fb.h := h1.2.1
    omega

/-- `draw_polygon_filled` never writes out of bounds. -/
theorem draw_polygon_filled_sameOutside (fb : Frame) (vertices : List (ℚ × ℚ)) (color : ℕ) :
    SameOutside fb (draw_polygon_filled fb vertices color) := by
  simp only [draw_polygon_filled, fill_sweep]
  set Y0 := (if yMinGlobal vertices fb.h < 0 then (0 : ℤ) else yMinGlobal vertices fb.h) with hY0
  set Y1 := (if yMaxGlobal vertices ≥ fb.h then fb.h - 1 else yMaxGlobal vertices) with hY1
  have hY0n : 0 ≤ Y0 := by rw [hY0]; split_ifs <;> omega
  have hY1h : Y1 ≤ fb.h - 1 ∨ Y1 < fb.h := by rw [hY1]; split_ifs <;> omega
  split_ifs with h3 hcmp
  · exact sameOutside_refl fb
  · exact sameOutside_refl fb
  · refine fill_sweep_fold_sameOutside _ _ color _ fb [] (fun r hr => ?_)
    rw [mem_intRange] at hr
    omega

/-- The textured pixel fold (frame, u, v state) stays inside the buffer when
every column it visits is in `[0, W)` and the row is in `[0, H)`. -/
theorem textured_fold_sameOutside (y : ℤ) (tex : ℤ → ℤ → ℕ) (tw th : ℤ)
    (modulate : ℕ) (du_dx dv_dx : ℚ) :
    ∀ (l : List ℤ) (fb : Frame) (cu cv : ℚ),
      (∀ k ∈ l, 0 ≤ k ∧ k < fb.w) → 0 ≤ y → y < fb.h →
      SameOutside fb ((l.foldl (fun (st : Frame × ℚ × ℚ) xx =>
        let tex_col := sample_nearest tex tw th st.2.1 st.2.2
        let tex_col2 := if modulate ≠ 0xFFFFFFFF then blend_colors tex_col modulate else tex_col
        (setPix st.1 xx y (blend_colors tex_col2 (st.1.data xx y)),
          st.2.1 + du_dx, st.2.2 + dv_dx)) (fb, cu, cv)).1) := by
  intro l
  induction l with
  | nil => intro fb cu cv _ _ _; exact sameOutside_refl fb
  | cons xx rest ih =>
    intro fb cu cv hmem hy0 hyh
    rw [List.foldl_cons]
    have hx := hmem xx (List.mem_cons_self xx rest)
    have h1 : SameOutside fb (setPix fb xx y (blend_colors
        (if modulate ≠ 0xFFFFFFFF then
          blend_colors (sample_nearest tex tw th cu cv) modulate
        else sample_nearest tex tw th cu cv) (fb.data xx y))) :=
      setPix_sameOutside fb xx y _ hx.1 hx.2 hy0 hyh
    refine sameOutside_trans h1 (ih _ _ _ (fun k hk => ?_) hy0 hyh)
    have := hmem k (List.mem_cons_of_mem _ hk)
    exact this

/-- A textured polygon span stays inside the buffer (row `y` in range). -/
theorem textured_span_sameOutside (fb : Frame) (e1 e2 : AEdge) (y : ℤ)
    (tex : ℤ → ℤ → ℕ) (tw th : ℤ) (modulate : ℕ) (hy0 : 0 ≤ y) (hyh : y < fb.h) :
    SameOutside fb (textured_span fb e1 e2 y tex tw th modulate) := by
  simp only [textured_span]
  by_cases hlt : cint e2.x > cint e1.x
  · rw [if_pos hlt]
    refine textured_fold_sameOutside y tex tw th modulate _ _ _ fb _ _
      (fun k hk => ?_) hy0 hyh
    rw [mem_intRange] at hk
    have h1 : (0 : ℤ) ≤ (if cint e1.x < 0 then (0 : ℤ) else cint e1.x) := by
      split_ifs <;> omega
    have h2 : (if cint e2.x > fb.w then fb.w else cint e2.x) ≤ fb.w := by
      split_ifs <;> omega
    omega
  · rw [if_neg hlt]
    exact sameOutside_refl fb

/-- One textured-polygon sweep row stays inside the buffer. -/
theorem textured_row_step_sameOutside (get : ℤ → List AEdge) (edges_count : ℕ)
    (tex : ℤ → ℤ → ℕ) (tw th : ℤ) (modulate : ℕ) (st : Frame × List AEdge) (y : ℤ)
    (hy0 : 0 ≤ y) (hyh : y < st.1.h) :
    SameOutside st.1 (textured_row_step get edges_count tex tw th modulate st y).1 := by
  simp only [textured_row_step]
  refine foldl_sameOutside _ _ st.1 (fun fb2 hw2 hh2 pr hpr => ?_)
  exact textured_span_sameOutside fb2 pr.1 pr.2 y tex tw th modulate hy0 (by omega)

/-- The textured-polygon sweep stays inside the buffer. -/
theorem textured_sweep_fold_sameOutside (get : ℤ → List AEdge) (edges_count : ℕ)
    (tex : ℤ → ℤ → ℕ) (tw th : ℤ) (modulate : ℕ) :
    ∀ (rows : List ℤ) (fb : Frame) (aet : List AEdge),
      (∀ r ∈ rows, 0 ≤ r ∧ r < fb.h) →
      SameOutside fb
        ((rows.foldl (textured_row_step get edges_count tex tw th modulate) (fb, aet)).1) := by
  intro rows
  induction rows with
  | nil => intro fb aet _; exact sameOutside_refl fb
  | cons r t ih =>
    intro fb aet hrows
    rw [List.foldl_cons]
    have hr := hrows r (List.mem_cons_self r t)
    have h1 : SameOutside fb (textured_row_step get edges_count tex tw th modulate (fb, aet) r).1 :=
      textured_row_step_sameOutside get edges_count tex tw th modulate (fb, aet) r hr.1 hr.2
    rw [← Prod.mk.eta (p := textured_row_step get edges_count tex tw th modulate (fb, aet) r)]
    refine sameOutside_trans h1 (ih _ _ (fun s hs => ?_))
    have hsb := hrows s (List.mem_cons_of_mem _ hs)
    have hpres : (textured_row_step get edges_count tex tw th modulate (fb, aet) r).1.h = fb.h :=
      h1.2.1
    omega

/-- `draw_polygon_textured` never writes out of bounds. -/
theorem draw_polygon_textured_sameOutside (fb : Frame) (vertices uvs : List (ℚ × ℚ))
    (tex : ℤ → ℤ → ℕ) (tw th : ℤ) (modulate : ℕ) :
    SameOutside fb (draw_polygon_textured fb vertices uvs tex tw th modulate) := by
  simp only [draw_polygon_textured, textured_sweep]
  set Y0 := (if yMinGlobal vertices fb.h < 0 then (0 : ℤ) else yMinGlobal vertices fb.h) with hY0
  set Y1 := (if yMaxGlobal vertices ≥ fb.h then fb.h - 1 else yMaxGlobal vertices) with hY1
  have hY0n : 0 ≤ Y0 := by rw [hY0]; split_ifs <;> omega
  have hY1h : Y1 ≤ fb.h - 1 ∨ Y1 < fb.h := by rw [hY1]; split_ifs <;> omega
  split_ifs with h3 hcmp
  · exact sameOutside_refl fb
  · exact sameOutside_refl fb
  · refine textured_sweep_fold_sameOutside _ _ tex tw th modulate _ fb [] (fun r hr => ?_)
    rw [mem_intRange] at hr
    omega

/-- `draw_polygon_outline` never writes out of bounds. -/
theorem draw_polygon_outline_sameOutside (fb : Frame) (vertices : List (ℚ × ℚ)) (color : ℕ) :
    SameOutside fb (draw_polygon_outline fb vertices color) := by
  rw [draw_polygon_outline]
  exact foldl_sameOutside_simple _
    (fun fa i => rasterize_line_c_sameOutside fa _ _ _ _ color) _ fb

/-- **C4.** No rasterizer entry point ever writes a framebuffer pixel outside
`[0,W) × [0,H)`: for each of `draw_point`, `draw_points`, `draw_line`,
`fill_rect`, `draw_rect_outline`, `draw_circle_filled`, `draw_circle_outline`,
`draw_triangle_textured`, `draw_polygon_filled`, `draw_polygon_outline` and
`draw_polygon_textured`, on every input the result keeps the framebuffer's
extent and agrees with the initial contents at every out-of-range coordinate
(out-of-range writes are silently dropped; the framebuffer is never grown). -/
theorem C4_no_out_of_bounds_writes :
    (∀ (fb : Frame) (x y : ℤ) (color : ℕ), SameOutside fb (draw_point fb x y color)) ∧
    (∀ (fb : Frame) (points : List (ℚ × ℚ)) (color : ℕ),
      SameOutside fb (draw_points fb points color)) ∧
    (∀ (fb : Frame) (x0 y0 x1 y1 : ℤ) (color : ℕ),
      SameOutside fb (draw_line fb x0 y0 x1 y1 color)) ∧
    (∀ (fb : Frame) (x y w h : ℤ) (color : ℕ), SameOutside fb (fill_rect fb x y w h color)) ∧
    (∀ (fb : Frame) (x y w h : ℤ) (color : ℕ) (t : ℤ),
      SameOutside fb (draw_rect_outline fb x y w h color t)) ∧
    (∀ (fb : Frame) (cx cy r : ℤ) (color : ℕ),
      SameOutside fb (draw_circle_filled fb cx cy r color)) ∧
    (∀ (fb : Frame) (cx cy r : ℤ) (color : ℕ),
      SameOutside fb (draw_circle_outline fb cx cy r color)) ∧
    (∀ (fb : Frame) (verts uvs : List (ℚ × ℚ)) (tex : ℤ → ℤ → ℕ) (tw th : ℤ) (bil : Bool),
      SameOutside fb (draw_triangle_textured fb verts uvs tex tw th bil)) ∧
    (∀ (fb : Frame) (verts : List (ℚ × ℚ)) (color : ℕ),
      SameOutside fb (draw_polygon_filled fb verts color)) ∧
    (∀ (fb : Frame) (verts : List (ℚ × ℚ)) (color : ℕ),
      SameOutside fb (draw_polygon_outline fb verts color)) ∧
    (∀ (fb : Frame) (verts uvs : List (ℚ × ℚ)) (tex : ℤ → ℤ → ℕ) (tw th : ℤ) (modulate : ℕ),
      SameOutside fb (draw_polygon_textured fb verts uvs tex tw th modulate)) :=
  ⟨fun fb x y color => draw_pixel_c_sameOutside fb x y color,
   draw_points_sameOutside,
   fun fb x0 y0 x1 y1 color => rasterize_line_c_sameOutside fb x0 y0 x1 y1 color,
   fill_rect_sameOutside,
   draw_rect_outline_sameOutside,
   draw_circle_filled_sameOutside,
   draw_circle_outline_sameOutside,
   draw_triangle_textured_sameOutside,
   draw_polygon_filled_sameOutside,
   draw_polygon_outline_sameOutside,
   draw_polygon_textured_sameOutside⟩

/-- **C4 (witness).** Each entry point, on a concrete 2×2 framebuffer holding
7 everywhere, leaves the out-of-range pixel `(5, 0)` (resp. `(0, 9)`)
untouched. -/
theorem C4_no_out_of_bounds_writes_witness :
    (draw_point ⟨2, 2, fun _ _ => 7⟩ 1 1 0xFF123456).data 5 0 = 7 ∧
    (draw_points ⟨2, 2, fun _ _ => 7⟩ [(0, 0), (9, 9)] 0xFF123456).data 5 0 = 7 ∧
    (draw_line ⟨2, 2, fun _ _ => 7⟩ 0 0 3 3 0xFF123456).data 5 0 = 7 ∧
    (fill_rect ⟨2, 2, fun _ _ => 7⟩ (-1) (-1) 9 9 0xFF123456).data 5 0 = 7 ∧
    (draw_rect_outline ⟨2, 2, fun _ _ => 7⟩ 0 0 2 2 0xFF123456 1).data 5 0 = 7 ∧
    (draw_circle_filled ⟨2, 2, fun _ _ => 7⟩ 1 1 4 0xFF123456).data 5 0 = 7 ∧
    (draw_circle_outline ⟨2, 2, fun _ _ => 7⟩ 1 1 4 0xFF123456).data 5 0 = 7 ∧
    (draw_triangle_textured ⟨2, 2, fun _ _ => 7⟩ [(0, 0), (4, 0), (0, 4)]
      [(0, 0), (1, 0), (0, 1)] (fun _ _ => 9) 1 1 false).data 5 0 = 7 ∧
    (draw_polygon_filled ⟨2, 2, fun _ _ => 7⟩ [(0, 0), (4, 0), (0, 4)] 0xFF123456).data 5 0 = 7 ∧
    (draw_polygon_outline ⟨2, 2, fun _ _ => 7⟩ [(0, 0), (4, 0), (0, 4)] 0xFF123456).data 5 0 = 7 ∧
    (draw_polygon_textured ⟨2, 2, fun _ _ => 7⟩ [(0, 0), (4, 0), (0, 4)]
      [(0, 0), (1, 0), (0, 1)] (fun _ _ => 9) 1 1 0xFFFFFFFF).data 0 9 = 7 :=
  ⟨(C4_no_out_of_bounds_writes.1 ⟨2, 2, fun _ _ => 7⟩ 1 1 0xFF123456).2.2 5 0
      (by right; left; decide),
   (C4_no_out_of_bounds_writes.2.1 ⟨2, 2, fun _ _ => 7⟩ [(0, 0), (9, 9)] 0xFF123456).2.2 5 0
      (by right; left; decide),
   (C4_no_out_of_bounds_writes.2.2.1 ⟨2, 2, fun _ _ => 7⟩ 0 0 3 3 0xFF123456).2.2 5 0
      (by right; left; decide),
   (C4_no_out_of_bounds_writes.2.2.2.1 ⟨2, 2, fun _ _ => 7⟩ (-1) (-1) 9 9 0xFF123456).2.2 5 0
      (by right; left; decide),
   (C4_no_out_of_bounds_writes.2.2.2.2.1 ⟨2, 2, fun _ _ => 7⟩ 0 0 2 2 0xFF123456 1).2.2 5 0
      (by right; left; decide),
   (C4_no_out_of_bounds_writes.2.2.2.2.2.1 ⟨2, 2, fun _ _ => 7⟩ 1 1 4 0xFF123456).2.2 5 0
      (by right; left; decide),
   (C4_no_out_of_bounds_writes.2.2.2.2.2.2.1 ⟨2, 2, fun _ _ => 7⟩ 1 1 4 0xFF123456).2.2 5 0
      (by right; left; decide),
   (C4_no_out_of_bounds_writes.2.2.2.2.2.2.2.1 ⟨2, 2, fun _ _ => 7⟩ [(0, 0), (4, 0), (0, 4)]
      [(0, 0), (1, 0), (0, 1)] (fun _ _ => 9) 1 1 false).2.2 5 0 (by right; left; decide),
   (C4_no_out_of_bounds_writes.2.2.2.2.2.2.2.2.1 ⟨2, 2, fun _ _ => 7⟩ [(0, 0), (4, 0), (0, 4)]
      0xFF123456).2.2 5 0 (by right; left; decide),
   (C4_no_out_of_bounds_writes.2.2.2.2.2.2.2.2.2.1 ⟨2, 2, fun _ _ => 7⟩ [(0, 0), (4, 0), (0, 4)]
      0xFF123456).2.2 5 0 (by right; left; decide),
   (C4_no_out_of_bounds_writes.2.2.2.2.2.2.2.2.2.2 ⟨2, 2, fun _ _ => 7⟩ [(0, 0), (4, 0), (0, 4)]
      [(0, 0), (1, 0), (0, 1)] (fun _ _ => 9) 1 1 0xFFFFFFFF).2.2 0 9
      (by right; right; right; decide)⟩

/-- The partial-pivot row index stays in `[col, 8)`. -/
theorem argmaxRow_bounds (M : ℕ → ℕ → ℚ) (col : ℕ) (hcol : col < 8) :
    col ≤ argmaxRow M col ∧ argmaxRow M col < 8 := by
  rw [argmaxRow]
  have hgen : ∀ (l : List ℕ) (best : ℕ × ℚ), (∀ r ∈ l, col ≤ r ∧ r < 8) →
      col ≤ best.1 ∧ best.1 < 8 →
      col ≤ (l.foldl (fun (b : ℕ × ℚ) row => if |M row col| > b.2 then (row, |M row col|) else b)
        best).1 ∧
        (l.foldl (fun (b : ℕ × ℚ) row => if |M row col| > b.2 then (row, |M row col|) else b)
          best).1 < 8 := by
    intro l
    induction l with
    | nil => intro best _ hb; exact hb
    | cons r t ih =>
      intro best hl hb
      rw [List.foldl_cons]
      refine ih _ (fun s hs => hl s (List.mem_cons_of_mem _ hs)) ?_
      have hr := hl r (List.mem_cons_self r t)
      split_ifs
      · exact hr
      · exact hb
  refine hgen _ _ (fun r hr => ?_) ⟨le_refl col, hcol⟩
  rw [List.mem_range'_1] at hr
  omega

/-- Row swap between rows in `[col, 8)` preserves the reduced-columns
invariant. -/
theorem gjSwap_reduced {st : GJState} {col mr : ℕ} (h : GJReduced col st)
    (hmr1 : col ≤ mr) (hmr2 : mr < 8) (hcol : col < 8) :
    GJReduced col (gjSwap st col mr) := by
  intro i hi c hc
  show (if i = col then st.M mr c else if i = mr then st.M col c else st.M i c)
    = if i = c then 1 else 0
  by_cases h1 : i = col
  · rw [if_pos h1, h mr hmr2 c hc, if_neg (show ¬ mr = c by omega),
      if_neg (show ¬ i = c by omega)]
  · by_cases h2 : i = mr
    · rw [if_neg h1, if_pos h2, h col hcol c hc, if_neg (show ¬ col = c by omega),
        if_neg (show ¬ i = c by omega)]
    · rw [if_neg h1, if_neg h2]
      exact h i hi c hc

/-- Any solution of the swapped system solves the original one. -/
theorem gjSwap_sat {st : GJState} {col mr : ℕ} (hcol : col < 8) (hmr2 : mr < 8)
    (v : ℕ → ℚ) (hs : SatLin (gjSwap st col mr) v) : SatLin st v := by
  intro i hi
  rcases eq_or_ne i col with h1 | h1
  · have hj := hs mr hmr2
    have hrow : ∀ j, (gjSwap st col mr).M mr j = st.M i j := by
      intro j
      show (if mr = col then st.M mr j else if mr = mr then st.M col j else st.M mr j) = st.M i j
      rcases eq_or_ne mr col with h2 | h2
      · rw [if_pos h2, h2, h1]
      · rw [if_neg h2, if_pos rfl, h1]
    have hr : (gjSwap st col mr).r mr = st.r i := by
      show (if mr = col then st.r mr else if mr = mr then st.r col else st.r mr) = st.r i
      rcases eq_or_ne mr col with h2 | h2
      · rw [if_pos h2, h2, h1]
      · rw [if_neg h2, if_pos rfl, h1]
    calc ∑ j ∈ Finset.range 8, st.M i j * v j
        = ∑ j ∈ Finset.range 8, (gjSwap st col mr).M mr j * v j :=
          Finset.sum_congr rfl (fun j _ => by rw [hrow j])
      _ = (gjSwap st col mr).r mr := hj
      _ = st.r i := hr
  · rcases eq_or_ne i mr with h2 | h2
    · have hj := hs col hcol
      have hrow : ∀ j, (gjSwap st col mr).M col j = st.M i j := by
        intro j
        show (if col = col then st.M mr j else if col = mr then st.M col j else st.M col j)
          = st.M i j
        rw [if_pos rfl, ← h2]
      have hr : (gjSwap st col mr).r col = st.r i := by
        show (if col = col then st.r mr else if col = mr then st.r col else st.r col) = st.r i
        rw [if_pos rfl, ← h2]
      calc ∑ j ∈ Finset.range 8, st.M i j * v j
          = ∑ j ∈ Finset.range 8, (gjSwap st col mr).M col j * v j :=
            Finset.sum_congr rfl (fun j _ => by rw [hrow j])
        _ = (gjSwap st col mr).r col := hj
        _ = st.r i := hr
    · have hj := hs i hi
      have hrow : ∀ j, (gjSwap st col mr).M i j = st.M i j := by
        intro j
        show (if i = col then st.M mr j else if i = mr then st.M col j else st.M i j) = st.M i j
        rw [if_neg h1, if_neg h2]
      have hr : (gjSwap st col mr).r i = st.r i := by
        show (if i = col then st.r mr else if i = mr then st.r col else st.r i) = st.r i
        rw [if_neg h1, if_neg h2]
      calc ∑ j ∈ Finset.range 8, st.M i j * v j
          = ∑ j ∈ Finset.range 8, (gjSwap st col mr).M i j * v j :=
            Finset.sum_congr rfl (fun j _ => by rw [hrow j])
        _ = (gjSwap st col mr).r i := hj
        _ = st.r i := hr

/-- Scaling the pivot row over columns `≥ col` preserves the reduced columns. -/
theorem gjScale_reduced {st : GJState} {col : ℕ} (inv : ℚ) (h : GJReduced col st) :
    GJReduced col (gjScale st col inv) := by
  intro i hi c hc
  show (if i = col ∧ col ≤ c ∧ c < 8 then st.M i c * inv else st.M i c) = if i = c then 1 else 0
  rw [if_neg (by rintro ⟨_, hcc, _⟩; omega)]
  exact h i hi c hc

/-- Any solution of the scaled system solves the original one (the pivot row
has a zero prefix, and the scale factor is nonzero). -/
theorem gjScale_sat {st : GJState} {col : ℕ} {inv : ℚ}
    (hrowzero : ∀ c < col, st.M col c = 0) (hcol : col < 8) (hinv : inv ≠ 0)
    (v : ℕ → ℚ) (hs : SatLin (gjScale st col inv) v) : SatLin st v := by
  intro i hi
  by_cases h1 : i = col
  · subst h1
    have hj := hs i hi
    have hsum : ∑ j ∈ Finset.range 8, (gjScale st i inv).M i j * v j
        = inv * ∑ j ∈ Finset.range 8, st.M i j * v j := by
      rw [Finset.mul_sum]
      refine Finset.sum_congr rfl (fun j hj2 => ?_)
      rw [Finset.mem_range] at hj2
      show (if i = i ∧ i ≤ j ∧ j < 8 then st.M i j * inv else st.M i j) * v j
        = inv * (st.M i j * v j)
      by_cases h2 : i ≤ j
      · rw [if_pos ⟨rfl, h2, hj2⟩]; ring
      · rw [if_neg (by rintro ⟨_, hc, _⟩; omega), hrowzero j (by omega)]; ring
    have hrr : (gjScale st i inv).r i = st.r i * inv := by
      show (if i = i then st.r i * inv else st.r i) = st.r i * inv
      rw [if_pos rfl]
    rw [hsum, hrr] at hj
    exact mul_left_cancel₀ hinv (hj.trans (mul_comm (st.r i) inv))
  · have hj := hs i hi
    have hrow : ∀ j, (gjScale st col inv).M i j = st.M i j := by
      intro j
      show (if i = col ∧ col ≤ j ∧ j < 8 then st.M i j * inv else st.M i j) = st.M i j
      rw [if_neg (by rintro ⟨hc, _, _⟩; exact h1 hc)]
    have hrr : (gjScale st col inv).r i = st.r i := by
      show (if i = col then st.r i * inv else st.r i) = st.r i
      rw [if_neg h1]
    calc ∑ j ∈ Finset.range 8, st.M i j * v j
        = ∑ j ∈ Finset.range 8, (gjScale st col inv).M i j * v j :=
          Finset.sum_congr rfl (fun j _ => by rw [hrow j])
      _ = (gjScale st col inv).r i := hj
      _ = st.r i := hrr

/-- Any solution of the eliminated system solves the pre-elimination one
(the pivot row has a zero prefix). -/
theorem gjElim_sat {st : GJState} {col : ℕ}
    (hrowzero : ∀ c < col, st.M col c = 0) (hcol : col < 8)
    (v : ℕ → ℚ) (hs : SatLin (gjElim st col) v) : SatLin st v := by
  have hrowc : ∀ j, (gjElim st col).M col j = st.M col j := by
    intro j
    show (if col < 8 ∧ col ≠ col ∧ col ≤ j ∧ j < 8 then
      st.M col j - st.M col col * st.M col j else st.M col j) = st.M col j
    rw [if_neg (by rintro ⟨_, hne, _⟩; exact hne rfl)]
  have hrc : (gjElim st col).r col = st.r col := by
    show (if col < 8 ∧ col ≠ col then st.r col - st.M col col * st.r col else st.r col)
      = st.r col
    rw [if_neg (by rintro ⟨_, hne⟩; exact hne rfl)]
  have hcolrow : ∑ j ∈ Finset.range 8, st.M col j * v j = st.r col := by
    have hj := hs col hcol
    calc ∑ j ∈ Finset.range 8, st.M col j * v j
        = ∑ j ∈ Finset.range 8, (gjElim st col).M col j * v j :=
          Finset.sum_congr rfl (fun j _ => by rw [hrowc j])
      _ = (gjElim st col).r col := hj
      _ = st.r col := hrc
  intro i hi
  by_cases h1 : i = col
  · subst h1; exact hcolrow
  · have hj := hs i hi
    have hsum : ∑ j ∈ Finset.range 8, (gjElim st col).M i j * v j
        = (∑ j ∈ Finset.range 8, st.M i j * v j)
          - st.M i col * ∑ j ∈ Finset.range 8, st.M col j * v j := by
      rw [Finset.mul_sum, ← Finset.sum_sub_distrib]
      refine Finset.sum_congr rfl (fun j hj2 => ?_)
      rw [Finset.mem_range] at hj2
      show (if i < 8 ∧ i ≠ col ∧ col ≤ j ∧ j < 8 then st.M i j - st.M i col * st.M col j
        else st.M i j) * v j = st.M i j * v j - st.M i col * (st.M col j * v j)
      by_cases h2 : col ≤ j
      · rw [if_pos ⟨hi, h1, h2, hj2⟩]; ring
      · rw [if_neg (by rintro ⟨_, _, hc, _⟩; omega), hrowzero j (by omega)]; ring
    have hrr : (gjElim st col).r i = st.r i - st.M i col * st.r col := by
      show (if i < 8 ∧ i ≠ col then st.r i - st.M i col * st.r col else st.r i)
        = st.r i - st.M i col * st.r col
      rw [if_pos ⟨hi, h1⟩]
    rw [hsum, hrr, hcolrow] at hj
    linarith

/-- One successful Gauss–Jordan column step extends the reduced-column
invariant to `col + 1` and is solution-preserving (backwards). -/
theorem gjStep_correct {col : ℕ} {st st2 : GJState} (hcol : col < 8)
    (hred : GJReduced col st) (hstep : gjStep col st = some st2) :
    GJReduced (col + 1) st2 ∧ ∀ v, SatLin st2 v → SatLin st v := by
  obtain ⟨hmr1, hmr2⟩ := argmaxRow_bounds st.M col hcol
  simp only [gjStep] at hstep
  by_cases hpiv : |(gjSwap st col (argmaxRow st.M col)).M col col| < 1e-9
  · rw [if_pos hpiv] at hstep
    cases hstep
  · rw [if_neg hpiv] at hstep
    have hst2 := (Option.some.injEq _ _).mp hstep
    have hpivne : (gjSwap st col (argmaxRow st.M col)).M col col ≠ 0 := by
      intro h0
      rw [h0] at hpiv
      norm_num at hpiv
    have hinvne : (1 : ℚ) / (gjSwap st col (argmaxRow st.M col)).M col col ≠ 0 :=
      one_div_ne_zero hpivne
    have hred1 : GJReduced col (gjSwap st col (argmaxRow st.M col)) :=
      gjSwap_reduced hred hmr1 hmr2 hcol
    have hred2 : GJReduced col (gjScale (gjSwap st col (argmaxRow st.M col)) col
        (1 / (gjSwap st col (argmaxRow st.M col)).M col col)) :=
      gjScale_reduced _ hred1
    have hscalecc : (gjScale (gjSwap st col (argmaxRow st.M col)) col
        (1 / (gjSwap st col (argmaxRow st.M col)).M col col)).M col col = 1 := by
      show (if col = col ∧ col ≤ col ∧ col < 8 then
          (gjSwap st col (argmaxRow st.M col)).M col col
            * (1 / (gjSwap st col (argmaxRow st.M col)).M col col)
        else (gjSwap st col (argmaxRow st.M col)).M col col) = 1
      rw [if_pos ⟨rfl, le_refl col, hcol⟩, mul_one_div, div_self hpivne]
    constructor
    · rw [← hst2]
      intro i hi c hc
      rcases Nat.lt_succ_iff_lt_or_eq.mp hc with hc2 | hc2
      · show (if i < 8 ∧ i ≠ col ∧ col ≤ c ∧ c < 8 then _ - _ * _ else
          (gjScale (gjSwap st col (argmaxRow st.M col)) col
            (1 / (gjSwap st col (argmaxRow st.M col)).M col col)).M i c) = if i = c then 1 else 0
        rw [if_neg (by rintro ⟨_, _, hcc, _⟩; omega)]
        exact hred2 i hi c hc2
      · subst hc2
        by_cases h1 : i = c
        · subst h1
          show (if i < 8 ∧ i ≠ i ∧ i ≤ i ∧ i < 8 then _ - _ * _ else
            (gjScale (gjSwap st i (argmaxRow st.M i)) i
              (1 / (gjSwap st i (argmaxRow st.M i)).M i i)).M i i) = if i = i then 1 else 0
          rw [if_neg (by rintro ⟨_, hne, _⟩; exact hne rfl), if_pos rfl]
          exact hscalecc
        · show (if i < 8 ∧ i ≠ c ∧ c ≤ c ∧ c < 8 then
            (gjScale (gjSwap st c (argmaxRow st.M c)) c
              (1 / (gjSwap st c (argmaxRow st.M c)).M c c)).M i c
              - (gjScale (gjSwap st c (argmaxRow st.M c)) c
                (1 / (gjSwap st c (argmaxRow st.M c)).M c c)).M i c
                * (gjScale (gjSwap st c (argmaxRow st.M c)) c
                  (1 / (gjSwap st c (argmaxRow st.M c)).M c c)).M c c
            else _) = if i = c then 1 else 0
          rw [if_pos ⟨hi, h1, le_refl c, hcol⟩, hscalecc, if_neg h1]
          ring
    · intro v hv
      rw [← hst2] at hv
      have hz1 : ∀ c < col, (gjSwap st col (argmaxRow st.M col)).M col c = 0 := by
        intro c hc
        have := hred1 col hcol c hc
        rwa [if_neg (by omega)] at this
      have hz2 : ∀ c < col, (gjScale (gjSwap st col (argmaxRow st.M col)) col
          (1 / (gjSwap st col (argmaxRow st.M col)).M col col)).M col c = 0 := by
        intro c hc
        have := hred2 col hcol c hc
        rwa [if_neg (by omega)] at this
      exact gjSwap_sat hcol hmr2 v (gjScale_sat hz1 hcol hinvne v (gjElim_sat hz2 hcol v hv))

/-- The Gauss–Jordan loop over columns `k, …, 7`: if it succeeds it produces a
fully reduced (identity) matrix and is solution-preserving backwards. -/
theorem gjRun_correct :
    ∀ (n k : ℕ) (st st2 : GJState), k + n = 8 → GJReduced k st →
      gjRun (List.range' k n) st = some st2 →
      GJReduced 8 st2 ∧ ∀ v, SatLin st2 v → SatLin st v := by
  intro n
  induction n with
  | zero =>
    intro k st st2 hk hred hrun
    have hst : st = st2 := (Option.some.injEq _ _).mp hrun
    rw [← hst]
    exact ⟨by rw [show (8 : ℕ) = k by omega]; exact hred, fun v hv => hv⟩
  | succ m ih =>
    intro k st st2 hk hred hrun
    rw [List.range'_succ] at hrun
    obtain ⟨st1, hstep, hrun2⟩ := Option.bind_eq_some.mp hrun
    obtain ⟨hredA, hbackA⟩ := gjStep_correct (by omega) hred hstep
    obtain ⟨hredB, hbackB⟩ := ih (k + 1) st1 st2 (by omega) hredA hrun2
    exact ⟨hredB, fun v hv => hbackA v (hbackB v hv)⟩

/-- A fully reduced system is solved by its own right-hand side. -/
theorem gjReduced_self_sat {st : GJState} (h : GJReduced 8 st) : SatLin st st.r := by
  intro i hi
  have h2 : ∀ j ∈ Finset.range 8, st.M i j * st.r j = if i = j then st.r j else 0 := by
    intro j hj
    rw [h i hi j (Finset.mem_range.mp hj)]
    split_ifs <;> ring
  rw [Finset.sum_congr rfl h2, Finset.sum_ite_eq (Finset.range 8) i st.r,
    if_pos (Finset.mem_range.mpr hi)]

/-- Applying a homography matrix built from a solution vector `r` of the two
row equations of one point pair reproduces that pair exactly (when the
denominator is not below the `1e-9` cutoff). -/
theorem apply_homography_row {r : ℕ → ℚ} {x y u v : ℚ}
    (hu : x * r 0 + y * r 1 + r 2 + (-x * u) * r 6 + (-y * u) * r 7 = u)
    (hv : x * r 3 + y * r 4 + r 5 + (-x * v) * r 6 + (-y * v) * r 7 = v)
    (hden : ¬ |r 6 * x + r 7 * y + 1| < 1e-9) :
    (apply_homography [[r 0, r 1, r 2], [r 3, r 4, r 5], [r 6, r 7, 1]] x y).1 = u ∧
    (apply_homography [[r 0, r 1, r 2], [r 3, r 4, r 5], [r 6, r 7, 1]] x y).2 = v := by
  have hne : r 6 * x + r 7 * y + 1 ≠ 0 := by
    intro h0
    rw [h0] at hden
    simp only [abs_zero] at hden
    exact hden (by norm_num)
  simp only [apply_homography, List.getD_cons_zero, List.getD_cons_succ]
  rw [if_neg hden]
  constructor
  · show (r 0 * x + r 1 * y + r 2) * (1 / (r 6 * x + r 7 * y + 1)) = u
    field_simp
    linear_combination hu
  · show (r 3 * x + r 4 * y + r 5) * (1 / (r 6 * x + r 7 * y + 1)) = v
    field_simp
    linear_combination hv

/-- **C6 (amended).** The claim holds on every run in which the Gauss–Jordan
elimination does NOT take the near-singular bail-out (so the identity
fallback is not returned) and the projective denominator at each source
point is not below the `1e-9` cutoff of `apply_homography`: for 4 source and
4 destination points, `compute_homography` returns the solved matrix `H` and
applying `H` via `apply_homography` to each source point yields the
corresponding destination point exactly — in particular within `1e-6` in
each coordinate. (The unamended universal claim fails on degenerate input:
see the accompanying counterexample, where the source's identity-fallback
path returns a matrix mapping `(0,0)` to `(0,0)` instead of `(5,5)`.) -/
theorem C6_homography_maps_corners (src dst : List (ℚ × ℚ)) (H : List (List ℚ))
    (hs : src.length = 4) (hd : dst.length = 4)
    (hE : computeHomographyE src dst = some H)
    (hden : ∀ i < 4, ¬ |(H.getD 2 []).getD 0 0 * (src.getD i (0, 0)).1
        + (H.getD 2 []).getD 1 0 * (src.getD i (0, 0)).2 + (H.getD 2 []).getD 2 0| < 1e-9) :
    compute_homography src dst = some H ∧
    ∀ i < 4,
      |(apply_homography H (src.getD i (0, 0)).1 (src.getD i (0, 0)).2).1
          - (dst.getD i (0, 0)).1| ≤ 1e-6 ∧
      |(apply_homography H (src.getD i (0, 0)).1 (src.getD i (0, 0)).2).2
          - (dst.getD i (0, 0)).2| ≤ 1e-6 := by
  have hE0 := hE
  simp only [computeHomographyE] at hE
  obtain ⟨stf, hrun, hHf⟩ := Option.map_eq_some'.mp hE
  have hHf2 : [[stf.r 0, stf.r 1, stf.r 2], [stf.r 3, stf.r 4, stf.r 5],
      [stf.r 6, stf.r 7, 1]] = H := hHf
  rw [List.range_eq_range' 8] at hrun
  obtain ⟨hredf, hback⟩ := gjRun_correct 8 0 _ stf rfl
    (fun i _ c hc => absurd hc (Nat.not_lt_zero c)) hrun
  have hsat0 : ∀ i < 8,
      (∑ j ∈ Finset.range 8, (((homographyRows src dst).getD i []).getD j 0) * stf.r j)
        = (homographyRhs src dst).getD i 0 :=
    hback stf.r (gjReduced_self_sat hredf)
  have e0 : (src.getD 0 (0,0)).1 * stf.r 0 + (src.getD 0 (0,0)).2 * stf.r 1 + 1 * stf.r 2
      + 0 * stf.r 3 + 0 * stf.r 4 + 0 * stf.r 5
      + (-(src.getD 0 (0,0)).1 * (dst.getD 0 (0,0)).1) * stf.r 6
      + (-(src.getD 0 (0,0)).2 * (dst.getD 0 (0,0)).1) * stf.r 7 = (dst.getD 0 (0,0)).1 := by
    have h := hsat0 0 (by norm_num)
    simp only [Finset.sum_range_succ, Finset.sum_range_zero, zero_add] at h
    exact h
  have e1 : 0 * stf.r 0 + 0 * stf.r 1 + 0 * stf.r 2
      + (src.getD 0 (0,0)).1 * stf.r 3 + (src.getD 0 (0,0)).2 * stf.r 4 + 1 * stf.r 5
      + (-(src.getD 0 (0,0)).1 * (dst.getD 0 (0,0)).2) * stf.r 6
      + (-(src.getD 0 (0,0)).2 * (dst.getD 0 (0,0)).2) * stf.r 7 = (dst.getD 0 (0,0)).2 := by
    have h := hsat0 1 (by norm_num)
    simp only [Finset.sum_range_succ, Finset.sum_range_zero, zero_add] at h
    exact h
  have e2 : (src.getD 1 (0,0)).1 * stf.r 0 + (src.getD 1 (0,0)).2 * stf.r 1 + 1 * stf.r 2
      + 0 * stf.r 3 + 0 * stf.r 4 + 0 * stf.r 5
      + (-(src.getD 1 (0,0)).1 * (dst.getD 1 (0,0)).1) * stf.r 6
      + (-(src.getD 1 (0,0)).2 * (dst.getD 1 (0,0)).1) * stf.r 7 = (dst.getD 1 (0,0)).1 := by
    have h := hsat0 2 (by norm_num)
    simp only [Finset.sum_range_succ, Finset.sum_range_zero, zero_add] at h
    exact h
  have e3 : 0 * stf.r 0 + 0 * stf.r 1 + 0 * stf.r 2
      + (src.getD 1 (0,0)).1 * stf.r 3 + (src.getD 1 (0,0)).2 * stf.r 4 + 1 * stf.r 5
      + (-(src.getD 1 (0,0)).1 * (dst.getD 1 (0,0)).2) * stf.r 6
      + (-(src.getD 1 (0,0)).2 * (dst.getD 1 (0,0)).2) * stf.r 7 = (dst.getD 1 (0,0)).2 := by
    have h := hsat0 3 (by norm_num)
    simp only [Finset.sum_range_succ, Finset.sum_range_zero, zero_add] at h
    exact h
  have e4 : (src.getD 2 (0,0)).1 * stf.r 0 + (src.getD 2 (0,0)).2 * stf.r 1 + 1 * stf.r 2
      + 0 * stf.r 3 + 0 * stf.r 4 + 0 * stf.r 5
      + (-(src.getD 2 (0,0)).1 * (dst.getD 2 (0,0)).1) * stf.r 6
      + (-(src.getD 2 (0,0)).2 * (dst.getD 2 (0,0)).1) * stf.r 7 = (dst.getD 2 (0,0)).1 := by
    have h := hsat0 4 (by norm_num)
    simp only [Finset.sum_range_succ, Finset.sum_range_zero, zero_add] at h
    exact h
  have e5 : 0 * stf.r 0 + 0 * stf.r 1 + 0 * stf.r 2
      + (src.getD 2 (0,0)).1 * stf.r 3 + (src.getD 2 (0,0)).2 * stf.r 4 + 1 * stf.r 5
      + (-(src.getD 2 (0,0)).1 * (dst.getD 2 (0,0)).2) * stf.r 6
      + (-(src.getD 2 (0,0)).2 * (dst.getD 2 (0,0)).2) * stf.r 7 = (dst.getD 2 (0,0)).2 := by
    have h := hsat0 5 (by norm_num)
    simp only [Finset.sum_range_succ, Finset.sum_range_zero, zero_add] at h
    exact h
  have e6 : (src.getD 3 (0,0)).1 * stf.r 0 + (src.getD 3 (0,0)).2 * stf.r 1 + 1 * stf.r 2
      + 0 * stf.r 3 + 0 * stf.r 4 + 0 * stf.r 5
      + (-(src.getD 3 (0,0)).1 * (dst.getD 3 (0,0)).1) * stf.r 6
      + (-(src.getD 3 (0,0)).2 * (dst.getD 3 (0,0)).1) * stf.r 7 = (dst.getD 3 (0,0)).1 := by
    have h := hsat0 6 (by norm_num)
    simp only [Finset.sum_range_succ, Finset.sum_range_zero, zero_add] at h
    exact h
  have e7 : 0 * stf.r 0 + 0 * stf.r 1 + 0 * stf.r 2
      + (src.getD 3 (0,0)).1 * stf.r 3 + (src.getD 3 (0,0)).2 * stf.r 4 + 1 * stf.r 5
      + (-(src.getD 3 (0,0)).1 * (dst.getD 3 (0,0)).2) * stf.r 6
      + (-(src.getD 3 (0,0)).2 * (dst.getD 3 (0,0)).2) * stf.r 7 = (dst.getD 3 (0,0)).2 := by
    have h := hsat0 7 (by norm_num)
    simp only [Finset.sum_range_succ, Finset.sum_range_zero, zero_add] at h
    exact h
  subst hHf2
  have hden' : ∀ i < 4,
      ¬ |stf.r 6 * (src.getD i (0, 0)).1 + stf.r 7 * (src.getD i (0, 0)).2 + 1| < 1e-9 :=
    hden
  constructor
  · simp only [compute_homography]
    rw [if_pos ⟨hs, hd⟩, hE0, Option.getD_some]
  · intro i hi
    interval_cases i
    · obtain ⟨ha, hb⟩ := apply_homography_row (r := stf.r)
        (x := (src.getD 0 (0,0)).1) (y := (src.getD 0 (0,0)).2)
        (u := (dst.getD 0 (0,0)).1) (v := (dst.getD 0 (0,0)).2)
        (by linear_combination e0) (by linear_combination e1) (hden' 0 (by norm_num))
      rw [ha, hb, sub_self, abs_zero]
      norm_num
    · obtain ⟨ha, hb⟩ := apply_homography_row (r := stf.r)
        (x := (src.getD 1 (0,0)).1) (y := (src.getD 1 (0,0)).2)
        (u := (dst.getD 1 (0,0)).1) (v := (dst.getD 1 (0,0)).2)
        (by linear_combination e2) (by linear_combination e3) (hden' 1 (by norm_num))
      rw [ha, hb, sub_self, abs_zero]
      norm_num
    · obtain ⟨ha, hb⟩ := apply_homography_row (r := stf.r)
        (x := (src.getD 2 (0,0)).1) (y := (src.getD 2 (0,0)).2)
        (u := (dst.getD 2 (0,0)).1) (v := (dst.getD 2 (0,0)).2)
        (by linear_combination e4) (by linear_combination e5) (hden' 2 (by norm_num))
      rw [ha, hb, sub_self, abs_zero]
      norm_num
    · obtain ⟨ha, hb⟩ := apply_homography_row (r := stf.r)
        (x := (src.getD 3 (0,0)).1) (y := (src.getD 3 (0,0)).2)
        (u := (dst.getD 3 (0,0)).1) (v := (dst.getD 3 (0,0)).2)
        (by linear_combination e6) (by linear_combination e7) (hden' 3 (by norm_num))
      rw [ha, hb, sub_self, abs_zero]
      norm_num

set_option maxRecDepth 100000 in
/-- **C6 (counterexample to the unamended claim).** `compute_homography` is
called with exactly 4 source and 4 destination points (all sources equal
`(0,0)`, all destinations `(5,5)`): the first pivot is `0`, the near-singular
bail-out fires and the identity matrix is returned, and applying it to the
first source point yields `(0,0)`, off the destination by `5 > 1e-6`. -/
theorem C6_degenerate_identity_fallback :
    compute_homography [((0:ℚ),(0:ℚ)),(0,0),(0,0),(0,0)] [(5,5),(5,5),(5,5),(5,5)]
      = some [[1,0,0],[0,1,0],[0,0,1]] ∧
    ¬ |(apply_homography [[(1:ℚ),0,0],[0,1,0],[0,0,1]] 0 0).1 - 5| ≤ 1e-6 := by
  with_unfolding_all decide

set_option maxRecDepth 400000 in
/-- Witness for the amended C6 theorem: the unit square mapped to itself.
The elimination succeeds with the identity matrix and every denominator is
`1 ≥ 1e-9`. -/
theorem C6_homography_maps_corners_witness :
    compute_homography [((0:ℚ),(0:ℚ)),(1,0),(1,1),(0,1)] [(0,0),(1,0),(1,1),(0,1)]
      = some [[1,0,0],[0,1,0],[0,0,1]] ∧
    ∀ i < 4,
      |(apply_homography [[1,0,0],[0,1,0],[0,0,1]]
          (([((0:ℚ),(0:ℚ)),(1,0),(1,1),(0,1)].getD i (0, 0)).1)
          (([((0:ℚ),(0:ℚ)),(1,0),(1,1),(0,1)].getD i (0, 0)).2)).1
        - (([((0:ℚ),(0:ℚ)),(1,0),(1,1),(0,1)].getD i (0, 0)).1)| ≤ 1e-6 ∧
      |(apply_homography [[1,0,0],[0,1,0],[0,0,1]]
          (([((0:ℚ),(0:ℚ)),(1,0),(1,1),(0,1)].getD i (0, 0)).1)
          (([((0:ℚ),(0:ℚ)),(1,0),(1,1),(0,1)].getD i (0, 0)).2)).2
        - (([((0:ℚ),(0:ℚ)),(1,0),(1,1),(0,1)].getD i (0, 0)).2)| ≤ 1e-6 :=
  C6_homography_maps_corners [((0:ℚ),(0:ℚ)),(1,0),(1,1),(0,1)] [(0,0),(1,0),(1,1),(0,1)]
    [[1,0,0],[0,1,0],[0,0,1]] rfl rfl (by with_unfolding_all decide)
    (by with_unfolding_all decide)

/-- The `left` bit of `_compute_outcode` is `x < min_x`. -/
theorem outcode_left_iff (x y mnx mny mxx mxy : ℚ) :
    (compute_outcode x y mnx mny mxx mxy).left = true ↔ x < mnx := by
  simp only [compute_outcode]
  split_ifs <;> simp_all

/-- The `right` bit of `_compute_outcode` (set by the `elif`) is
`¬(x < min_x) ∧ x > max_x`. -/
theorem outcode_right_iff (x y mnx mny mxx mxy : ℚ) :
    (compute_outcode x y mnx mny mxx mxy).right = true ↔ (¬ x < mnx ∧ mxx < x) := by
  simp only [compute_outcode]
  split_ifs <;> simp_all

/-- The `bottom` bit of `_compute_outcode` is `y < min_y`. -/
theorem outcode_bottom_iff (x y mnx mny mxx mxy : ℚ) :
    (compute_outcode x y mnx mny mxx mxy).bottom = true ↔ y < mny := by
  simp only [compute_outcode]
  split_ifs <;> simp_all

/-- The `top` bit of `_compute_outcode` (set by the `elif`) is
`¬(y < min_y) ∧ y > max_y`. -/
theorem outcode_top_iff (x y mnx mny mxx mxy : ℚ) :
    (compute_outcode x y mnx mny mxx mxy).top = true ↔ (¬ y < mny ∧ mxy < y) := by
  simp only [compute_outcode]
  split_ifs <;> simp_all

/-- The outcode is `INSIDE` exactly on the closed clip rectangle. -/
theorem outcode_inside_iff (x y mnx mny mxx mxy : ℚ) :
    compute_outcode x y mnx mny mxx mxy = Outcode.inside ↔
      inBox x y mnx mny mxx mxy := by
  simp only [compute_outcode, Outcode.inside, inBox, Outcode.mk.injEq]
  split_ifs <;> constructor <;> intro h <;> simp_all <;> linarith

/-- An affine function bounded above at both ends of an interval is bounded
above on the whole interval. -/
theorem lin_le_of_ends {c d a b t M : ℚ} (ha : c + a * d ≤ M) (hb : c + b * d ≤ M)
    (h1 : a ≤ t) (h2 : t ≤ b) : c + t * d ≤ M := by
  rcases le_total d 0 with hd | hd
  · nlinarith
  · nlinarith

/-- Strict variant of `lin_le_of_ends`. -/
theorem lin_lt_of_ends {c d a b t M : ℚ} (ha : c + a * d < M) (hb : c + b * d < M)
    (h1 : a ≤ t) (h2 : t ≤ b) : c + t * d < M := by
  rcases le_total d 0 with hd | hd
  · nlinarith
  · nlinarith

/-- An affine function bounded below at both ends of an interval is bounded
below on the whole interval. -/
theorem lin_ge_of_ends {c d a b t M : ℚ} (ha : M ≤ c + a * d) (hb : M ≤ c + b * d)
    (h1 : a ≤ t) (h2 : t ≤ b) : M ≤ c + t * d := by
  rcases le_total d 0 with hd | hd
  · nlinarith
  · nlinarith

/-- Strict variant of `lin_ge_of_ends`. -/
theorem lin_gt_of_ends {c d a b t M : ℚ} (ha : M < c + a * d) (hb : M < c + b * d)
    (h1 : a ≤ t) (h2 : t ≤ b) : M < c + t * d := by
  rcases le_total d 0 with hd | hd
  · nlinarith
  · nlinarith

/-- Parametric clip of the first endpoint against an upper boundary `M`:
the first endpoint (parameter `a`) violates `f > M`, the second satisfies
`f ≤ M`, and `s` is the source's interpolation factor. The clipped
parameter lands on the boundary, strictly advances `a`, stays within
`[a, b]`, and separates the sublevel set `f ≤ M`. -/
theorem clipA_max {c d a b s M : ℚ} (hs : s = (M - (c + a * d)) / ((c + b * d) - (c + a * d)))
    (ha : M < c + a * d) (hb : c + b * d ≤ M) (hab : a ≤ b) :
    a < a + s * (b - a) ∧ a + s * (b - a) ≤ b ∧ c + (a + s * (b - a)) * d = M ∧
    (∀ t, c + t * d ≤ M → a + s * (b - a) ≤ t) ∧
    (∀ t, a + s * (b - a) ≤ t → c + t * d ≤ M) := by
  have hD : (c + b * d) - (c + a * d) < 0 := by linarith
  have hd : d < 0 := by nlinarith
  have hsD : s * ((c + b * d) - (c + a * d)) = M - (c + a * d) := by
    rw [hs, div_mul_cancel₀ _ (ne_of_lt hD)]
  have hs0 : 0 < s := by
    by_contra hcon
    push_neg at hcon
    nlinarith
  have hs1 : s ≤ 1 := by
    by_contra hcon
    push_neg at hcon
    nlinarith
  have hqM : c + (a + s * (b - a)) * d = M := by linear_combination hsD
  refine ⟨by nlinarith, by nlinarith, hqM, ?_, ?_⟩
  · intro t ht
    by_contra hcon
    push_neg at hcon
    nlinarith
  · intro t ht
    nlinarith

/-- Parametric clip of the first endpoint against a lower boundary `M`. -/
theorem clipA_min {c d a b s M : ℚ} (hs : s = (M - (c + a * d)) / ((c + b * d) - (c + a * d)))
    (ha : c + a * d < M) (hb : M ≤ c + b * d) (hab : a ≤ b) :
    a < a + s * (b - a) ∧ a + s * (b - a) ≤ b ∧ c + (a + s * (b - a)) * d = M ∧
    (∀ t, M ≤ c + t * d → a + s * (b - a) ≤ t) ∧
    (∀ t, a + s * (b - a) ≤ t → M ≤ c + t * d) := by
  have hD : 0 < (c + b * d) - (c + a * d) := by linarith
  have hd : 0 < d := by nlinarith
  have hsD : s * ((c + b * d) - (c + a * d)) = M - (c + a * d) := by
    rw [hs, div_mul_cancel₀ _ (ne_of_gt hD)]
  have hs0 : 0 < s := by
    by_contra hcon
    push_neg at hcon
    nlinarith
  have hs1 : s ≤ 1 := by
    by_contra hcon
    push_neg at hcon
    nlinarith
  have hqM : c + (a + s * (b - a)) * d = M := by linear_combination hsD
  refine ⟨by nlinarith, by nlinarith, hqM, ?_, ?_⟩
  · intro t ht
    by_contra hcon
    push_neg at hcon
    nlinarith
  · intro t ht
    nlinarith

/-- Parametric clip of the second endpoint against an upper boundary `M`:
the second endpoint (parameter `b`) violates `f > M`, the first satisfies
`f ≤ M`; the interpolation factor is still anchored at the first endpoint. -/
theorem clipB_max {c d a b s M : ℚ} (hs : s = (M - (c + a * d)) / ((c + b * d) - (c + a * d)))
    (ha : c + a * d ≤ M) (hb : M < c + b * d) (hab : a ≤ b) :
    a ≤ a + s * (b - a) ∧ a + s * (b - a) < b ∧ c + (a + s * (b - a)) * d = M ∧
    (∀ t, c + t * d ≤ M → t ≤ a + s * (b - a)) ∧
    (∀ t, t ≤ a + s * (b - a) → c + t * d ≤ M) := by
  have hD : 0 < (c + b * d) - (c + a * d) := by linarith
  have hd : 0 < d := by nlinarith
  have hsD : s * ((c + b * d) - (c + a * d)) = M - (c + a * d) := by
    rw [hs, div_mul_cancel₀ _ (ne_of_gt hD)]
  have hs0 : 0 ≤ s := by
    by_contra hcon
    push_neg at hcon
    nlinarith
  have hs1 : s < 1 := by
    by_contra hcon
    push_neg at hcon
    nlinarith
  have hqM : c + (a + s * (b - a)) * d = M := by linear_combination hsD
  refine ⟨by nlinarith, by nlinarith, hqM, ?_, ?_⟩
  · intro t ht
    by_contra hcon
    push_neg at hcon
    nlinarith
  · intro t ht
    nlinarith

/-- Parametric clip of the second endpoint against a lower boundary `M`. -/
theorem clipB_min {c d a b s M : ℚ} (hs : s = (M - (c + a * d)) / ((c + b * d) - (c + a * d)))
    (ha : M ≤ c + a * d) (hb : c + b * d < M) (hab : a ≤ b) :
    a ≤ a + s * (b - a) ∧ a + s * (b - a) < b ∧ c + (a + s * (b - a)) * d = M ∧
    (∀ t, M ≤ c + t * d → t ≤ a + s * (b - a)) ∧
    (∀ t, t ≤ a + s * (b - a) → M ≤ c + t * d) := by
  have hD : (c + b * d) - (c + a * d) < 0 := by linarith
  have hd : d < 0 := by nlinarith
  have hsD : s * ((c + b * d) - (c + a * d)) = M - (c + a * d) := by
    rw [hs, div_mul_cancel₀ _ (ne_of_lt hD)]
  have hs0 : 0 ≤ s := by
    by_contra hcon
    push_neg at hcon
    nlinarith
  have hs1 : s < 1 := by
    by_contra hcon
    push_neg at hcon
    nlinarith
  have hqM : c + (a + s * (b - a)) * d = M := by linear_combination hsD
  refine ⟨by nlinarith, by nlinarith, hqM, ?_, ?_⟩
  · intro t ht
    by_contra hcon
    push_neg at hcon
    nlinarith
  · intro t ht
    nlinarith

/-- Invariant update for clipping the first endpoint against the top
boundary (`outcode_out & 8`, first endpoint chosen). -/
theorem clipInv_step1_top {mnx mny mxx mxy x1 y1 x2 y2 a b : ℚ} {cL cR cB cT : Bool}
    (ha0 : 0 ≤ a) (hab : a ≤ b) (hb1 : b ≤ 1)
    (hbox : ∀ t, 0 ≤ t → t ≤ 1 →
      inBox (x1 + t * (x2 - x1)) (y1 + t * (y2 - y1)) mnx mny mxx mxy → a ≤ t ∧ t ≤ b)
    (hcL : cL = true → ∀ t, a ≤ t → t ≤ b → mnx ≤ x1 + t * (x2 - x1))
    (hcR : cR = true → ∀ t, a ≤ t → t ≤ b → x1 + t * (x2 - x1) ≤ mxx)
    (hcB : cB = true → ∀ t, a ≤ t → t ≤ b → mny ≤ y1 + t * (y2 - y1))
    (hcT : cT = true → ∀ t, a ≤ t → t ≤ b → y1 + t * (y2 - y1) ≤ mxy)
    (hY1 : mxy < y1 + a * (y2 - y1)) (hY2 : y1 + b * (y2 - y1) ≤ mxy) :
    cT = false ∧
    ClipInv mnx mny mxx mxy x1 y1 x2 y2 cL cR cB true
      ((x1 + a * (x2 - x1)) + ((x1 + b * (x2 - x1)) - (x1 + a * (x2 - x1)))
        * (mxy - (y1 + a * (y2 - y1))) / ((y1 + b * (y2 - y1)) - (y1 + a * (y2 - y1))))
      mxy (x1 + b * (x2 - x1)) (y1 + b * (y2 - y1)) := by
  obtain ⟨hq1, hq2, hq3, hq4, hq5⟩ := clipA_max (c := y1) (d := y2 - y1) (a := a) (b := b)
    (M := mxy)
    (s := (mxy - (y1 + a * (y2 - y1))) / ((y1 + b * (y2 - y1)) - (y1 + a * (y2 - y1))))
    rfl hY1 hY2 hab
  constructor
  · cases cT with
    | false => rfl
    | true => exact absurd (hcT rfl a le_rfl hab) (not_le.mpr hY1)
  · refine ⟨a + (mxy - (y1 + a * (y2 - y1))) / ((y1 + b * (y2 - y1)) - (y1 + a * (y2 - y1)))
        * (b - a), b,
      by linarith, hq2, hb1, by ring, hq3.symm, rfl, rfl, ?_, ?_, ?_, ?_, ?_⟩
    · intro t h0 h1 hbx
      exact ⟨hq4 t hbx.2.2.2, (hbox t h0 h1 hbx).2⟩
    · intro h t h1 h2
      exact hcL h t (by linarith) h2
    · intro h t h1 h2
      exact hcR h t (by linarith) h2
    · intro h t h1 h2
      exact hcB h t (by linarith) h2
    · intro _ t h1 _
      exact hq5 t h1

/-- Invariant update for clipping the first endpoint against the bottom
boundary (`outcode_out & 4`, first endpoint chosen). -/
theorem clipInv_step1_bottom {mnx mny mxx mxy x1 y1 x2 y2 a b : ℚ} {cL cR cB cT : Bool}
    (ha0 : 0 ≤ a) (hab : a ≤ b) (hb1 : b ≤ 1)
    (hbox : ∀ t, 0 ≤ t → t ≤ 1 →
      inBox (x1 + t * (x2 - x1)) (y1 + t * (y2 - y1)) mnx mny mxx mxy → a ≤ t ∧ t ≤ b)
    (hcL : cL = true → ∀ t, a ≤ t → t ≤ b → mnx ≤ x1 + t * (x2 - x1))
    (hcR : cR = true → ∀ t, a ≤ t → t ≤ b → x1 + t * (x2 - x1) ≤ mxx)
    (hcB : cB = true → ∀ t, a ≤ t → t ≤ b → mny ≤ y1 + t * (y2 - y1))
    (hcT : cT = true → ∀ t, a ≤ t → t ≤ b → y1 + t * (y2 - y1) ≤ mxy)
    (hY1 : y1 + a * (y2 - y1) < mny) (hY2 : mny ≤ y1 + b * (y2 - y1)) :
    cB = false ∧
    ClipInv mnx mny mxx mxy x1 y1 x2 y2 cL cR true cT
      ((x1 + a * (x2 - x1)) + ((x1 + b * (x2 - x1)) - (x1 + a * (x2 - x1)))
        * (mny - (y1 + a * (y2 - y1))) / ((y1 + b * (y2 - y1)) - (y1 + a * (y2 - y1))))
      mny (x1 + b * (x2 - x1)) (y1 + b * (y2 - y1)) := by
  obtain ⟨hq1, hq2, hq3, hq4, hq5⟩ := clipA_min (c := y1) (d := y2 - y1) (a := a) (b := b)
    (M := mny)
    (s := (mny - (y1 + a * (y2 - y1))) / ((y1 + b * (y2 - y1)) - (y1 + a * (y2 - y1))))
    rfl hY1 hY2 hab
  constructor
  · cases cB with
    | false => rfl
    | true => exact absurd (hcB rfl a le_rfl hab) (not_le.mpr hY1)
  · refine ⟨a + (mny - (y1 + a * (y2 - y1))) / ((y1 + b * (y2 - y1)) - (y1 + a * (y2 - y1)))
        * (b - a), b,
      by linarith, hq2, hb1, by ring, hq3.symm, rfl, rfl, ?_, ?_, ?_, ?_, ?_⟩
    · intro t h0 h1 hbx
      exact ⟨hq4 t hbx.2.2.1, (hbox t h0 h1 hbx).2⟩
    · intro h t h1 h2
      exact hcL h t (by linarith) h2
    · intro h t h1 h2
      exact hcR h t (by linarith) h2
    · intro _ t h1 _
      exact hq5 t h1
    · intro h t h1 h2
      exact hcT h t (by linarith) h2

/-- Invariant update for clipping the first endpoint against the right
boundary (`outcode_out & 2`, first endpoint chosen). -/
theorem clipInv_step1_right {mnx mny mxx mxy x1 y1 x2 y2 a b : ℚ} {cL cR cB cT : Bool}
    (ha0 : 0 ≤ a) (hab : a ≤ b) (hb1 : b ≤ 1)
    (hbox : ∀ t, 0 ≤ t → t ≤ 1 →
      inBox (x1 + t * (x2 - x1)) (y1 + t * (y2 - y1)) mnx mny mxx mxy → a ≤ t ∧ t ≤ b)
    (hcL : cL = true → ∀ t, a ≤ t → t ≤ b → mnx ≤ x1 + t * (x2 - x1))
    (hcR : cR = true → ∀ t, a ≤ t → t ≤ b → x1 + t * (x2 - x1) ≤ mxx)
    (hcB : cB = true → ∀ t, a ≤ t → t ≤ b → mny ≤ y1 + t * (y2 - y1))
    (hcT : cT = true → ∀ t, a ≤ t → t ≤ b → y1 + t * (y2 - y1) ≤ mxy)
    (hX1 : mxx < x1 + a * (x2 - x1)) (hX2 : x1 + b * (x2 - x1) ≤ mxx) :
    cR = false ∧
    ClipInv mnx mny mxx mxy x1 y1 x2 y2 cL true cB cT
      mxx
      ((y1 + a * (y2 - y1)) + ((y1 + b * (y2 - y1)) - (y1 + a * (y2 - y1)))
        * (mxx - (x1 + a * (x2 - x1))) / ((x1 + b * (x2 - x1)) - (x1 + a * (x2 - x1))))
      (x1 + b * (x2 - x1)) (y1 + b * (y2 - y1)) := by
  obtain ⟨hq1, hq2, hq3, hq4, hq5⟩ := clipA_max (c := x1) (d := x2 - x1) (a := a) (b := b)
    (M := mxx)
    (s := (mxx - (x1 + a * (x2 - x1))) / ((x1 + b * (x2 - x1)) - (x1 + a * (x2 - x1))))
    rfl hX1 hX2 hab
  constructor
  · cases cR with
    | false => rfl
    | true => exact absurd (hcR rfl a le_rfl hab) (not_le.mpr hX1)
  · refine ⟨a + (mxx - (x1 + a * (x2 - x1))) / ((x1 + b * (x2 - x1)) - (x1 + a * (x2 - x1)))
        * (b - a), b,
      by linarith, hq2, hb1, hq3.symm, by ring, rfl, rfl, ?_, ?_, ?_, ?_, ?_⟩
    · intro t h0 h1 hbx
      exact ⟨hq4 t hbx.2.1, (hbox t h0 h1 hbx).2⟩
    · intro h t h1 h2
      exact hcL h t (by linarith) h2
    · intro _ t h1 _
      exact hq5 t h1
    · intro h t h1 h2
      exact hcB h t (by linarith) h2
    · intro h t h1 h2
      exact hcT h t (by linarith) h2

/-- Invariant update for clipping the first endpoint against the left
boundary (`outcode_out & 1`, first endpoint chosen). -/
theorem clipInv_step1_left {mnx mny mxx mxy x1 y1 x2 y2 a b : ℚ} {cL cR cB cT : Bool}
    (ha0 : 0 ≤ a) (hab : a ≤ b) (hb1 : b ≤ 1)
    (hbox : ∀ t, 0 ≤ t → t ≤ 1 →
      inBox (x1 + t * (x2 - x1)) (y1 + t * (y2 - y1)) mnx mny mxx mxy → a ≤ t ∧ t ≤ b)
    (hcL : cL = true → ∀ t, a ≤ t → t ≤ b → mnx ≤ x1 + t * (x2 - x1))
    (hcR : cR = true → ∀ t, a ≤ t → t ≤ b → x1 + t * (x2 - x1) ≤ mxx)
    (hcB : cB = true → ∀ t, a ≤ t → t ≤ b → mny ≤ y1 + t * (y2 - y1))
    (hcT : cT = true → ∀ t, a ≤ t → t ≤ b → y1 + t * (y2 - y1) ≤ mxy)
    (hX1 : x1 + a * (x2 - x1) < mnx) (hX2 : mnx ≤ x1 + b * (x2 - x1)) :
    cL = false ∧
    ClipInv mnx mny mxx mxy x1 y1 x2 y2 true cR cB cT
      mnx
      ((y1 + a * (y2 - y1)) + ((y1 + b * (y2 - y1)) - (y1 + a * (y2 - y1)))
        * (mnx - (x1 + a * (x2 - x1))) / ((x1 + b * (x2 - x1)) - (x1 + a * (x2 - x1))))
      (x1 + b * (x2 - x1)) (y1 + b * (y2 - y1)) := by
  obtain ⟨hq1, hq2, hq3, hq4, hq5⟩ := clipA_min (c := x1) (d := x2 - x1) (a := a) (b := b)
    (M := mnx)
    (s := (mnx - (x1 + a * (x2 - x1))) / ((x1 + b * (x2 - x1)) - (x1 + a * (x2 - x1))))
    rfl hX1 hX2 hab
  constructor
  · cases cL with
    | false => rfl
    | true => exact absurd (hcL rfl a le_rfl hab) (not_le.mpr hX1)
  · refine ⟨a + (mnx - (x1 + a * (x2 - x1))) / ((x1 + b * (x2 - x1)) - (x1 + a * (x2 - x1)))
        * (b - a), b,
      by linarith, hq2, hb1, hq3.symm, by ring, rfl, rfl, ?_, ?_, ?_, ?_, ?_⟩
    · intro t h0 h1 hbx
      exact ⟨hq4 t hbx.1, (hbox t h0 h1 hbx).2⟩
    · intro _ t h1 _
      exact hq5 t h1
    · intro h t h1 h2
      exact hcR h t (by linarith) h2
    · intro h t h1 h2
      exact hcB h t (by linarith) h2
    · intro h t h1 h2
      exact hcT h t (by linarith) h2

/-- Invariant update for clipping the second endpoint against the top
boundary (`outcode_out & 8`, second endpoint chosen). -/
theorem clipInv_step2_top {mnx mny mxx mxy x1 y1 x2 y2 a b : ℚ} {cL cR cB cT : Bool}
    (ha0 : 0 ≤ a) (hab : a ≤ b) (hb1 : b ≤ 1)
    (hbox : ∀ t, 0 ≤ t → t ≤ 1 →
      inBox (x1 + t * (x2 - x1)) (y1 + t * (y2 - y1)) mnx mny mxx mxy → a ≤ t ∧ t ≤ b)
    (hcL : cL = true → ∀ t, a ≤ t → t ≤ b → mnx ≤ x1 + t * (x2 - x1))
    (hcR : cR = true → ∀ t, a ≤ t → t ≤ b → x1 + t * (x2 - x1) ≤ mxx)
    (hcB : cB = true → ∀ t, a ≤ t → t ≤ b → mny ≤ y1 + t * (y2 - y1))
    (hcT : cT = true → ∀ t, a ≤ t → t ≤ b → y1 + t * (y2 - y1) ≤ mxy)
    (hY1 : y1 + a * (y2 - y1) ≤ mxy) (hY2 : mxy < y1 + b * (y2 - y1)) :
    cT = false ∧
    ClipInv mnx mny mxx mxy x1 y1 x2 y2 cL cR cB true
      (x1 + a * (x2 - x1)) (y1 + a * (y2 - y1))
      ((x1 + a * (x2 - x1)) + ((x1 + b * (x2 - x1)) - (x1 + a * (x2 - x1)))
        * (mxy - (y1 + a * (y2 - y1))) / ((y1 + b * (y2 - y1)) - (y1 + a * (y2 - y1))))
      mxy := by
  obtain ⟨hq1, hq2, hq3, hq4, hq5⟩ := clipB_max (c := y1) (d := y2 - y1) (a := a) (b := b)
    (M := mxy)
    (s := (mxy - (y1 + a * (y2 - y1))) / ((y1 + b * (y2 - y1)) - (y1 + a * (y2 - y1))))
    rfl hY1 hY2 hab
  constructor
  · cases cT with
    | false => rfl
    | true => exact absurd (hcT rfl b hab le_rfl) (not_le.mpr hY2)
  · refine ⟨a, a + (mxy - (y1 + a * (y2 - y1))) / ((y1 + b * (y2 - y1)) - (y1 + a * (y2 - y1)))
        * (b - a),
      ha0, hq1, by linarith, rfl, rfl, by ring, hq3.symm, ?_, ?_, ?_, ?_, ?_⟩
    · intro t h0 h1 hbx
      exact ⟨(hbox t h0 h1 hbx).1, hq4 t hbx.2.2.2⟩
    · intro h t h1 h2
      exact hcL h t h1 (by linarith)
    · intro h t h1 h2
      exact hcR h t h1 (by linarith)
    · intro h t h1 h2
      exact hcB h t h1 (by linarith)
    · intro _ t _ h2
      exact hq5 t h2

/-- Invariant update for clipping the second endpoint against the bottom
boundary (`outcode_out & 4`, second endpoint chosen). -/
theorem clipInv_step2_bottom {mnx mny mxx mxy x1 y1 x2 y2 a b : ℚ} {cL cR cB cT : Bool}
    (ha0 : 0 ≤ a) (hab : a ≤ b) (hb1 : b ≤ 1)
    (hbox : ∀ t, 0 ≤ t → t ≤ 1 →
      inBox (x1 + t * (x2 - x1)) (y1 + t * (y2 - y1)) mnx mny mxx mxy → a ≤ t ∧ t ≤ b)
    (hcL : cL = true → ∀ t, a ≤ t → t ≤ b → mnx ≤ x1 + t * (x2 - x1))
    (hcR : cR = true → ∀ t, a ≤ t → t ≤ b → x1 + t * (x2 - x1) ≤ mxx)
    (hcB : cB = true → ∀ t, a ≤ t → t ≤ b → mny ≤ y1 + t * (y2 - y1))
    (hcT : cT = true → ∀ t, a ≤ t → t ≤ b → y1 + t * (y2 - y1) ≤ mxy)
    (hY1 : mny ≤ y1 + a * (y2 - y1)) (hY2 : y1 + b * (y2 - y1) < mny) :
    cB = false ∧
    ClipInv mnx mny mxx mxy x1 y1 x2 y2 cL cR true cT
      (x1 + a * (x2 - x1)) (y1 + a * (y2 - y1))
      ((x1 + a * (x2 - x1)) + ((x1 + b * (x2 - x1)) - (x1 + a * (x2 - x1)))
        * (mny - (y1 + a * (y2 - y1))) / ((y1 + b * (y2 - y1)) - (y1 + a * (y2 - y1))))
      mny := by
  obtain ⟨hq1, hq2, hq3, hq4, hq5⟩ := clipB_min (c := y1) (d := y2 - y1) (a := a) (b := b)
    (M := mny)
    (s := (mny - (y1 + a * (y2 - y1))) / ((y1 + b * (y2 - y1)) - (y1 + a * (y2 - y1))))
    rfl hY1 hY2 hab
  constructor
  · cases cB with
    | false => rfl
    | true => exact absurd (hcB rfl b hab le_rfl) (not_le.mpr hY2)
  · refine ⟨a, a + (mny - (y1 + a * (y2 - y1))) / ((y1 + b * (y2 - y1)) - (y1 + a * (y2 - y1)))
        * (b - a),
      ha0, hq1, by linarith, rfl, rfl, by ring, hq3.symm, ?_, ?_, ?_, ?_, ?_⟩
    · intro t h0 h1 hbx
      exact ⟨(hbox t h0 h1 hbx).1, hq4 t hbx.2.2.1⟩
    · intro h t h1 h2
      exact hcL h t h1 (by linarith)
    · intro h t h1 h2
      exact hcR h t h1 (by linarith)
    · intro _ t _ h2
      exact hq5 t h2
    · intro h t h1 h2
      exact hcT h t h1 (by linarith)

/-- Invariant update for clipping the second endpoint against the right
boundary (`outcode_out & 2`, second endpoint chosen). -/
theorem clipInv_step2_right {mnx mny mxx mxy x1 y1 x2 y2 a b : ℚ} {cL cR cB cT : Bool}
    (ha0 : 0 ≤ a) (hab : a ≤ b) (hb1 : b ≤ 1)
    (hbox : ∀ t, 0 ≤ t → t ≤ 1 →
      inBox (x1 + t * (x2 - x1)) (y1 + t * (y2 - y1)) mnx mny mxx mxy → a ≤ t ∧ t ≤ b)
    (hcL : cL = true → ∀ t, a ≤ t → t ≤ b → mnx ≤ x1 + t * (x2 - x1))
    (hcR : cR = true → ∀ t, a ≤ t → t ≤ b → x1 + t * (x2 - x1) ≤ mxx)
    (hcB : cB = true → ∀ t, a ≤ t → t ≤ b → mny ≤ y1 + t * (y2 - y1))
    (hcT : cT = true → ∀ t, a ≤ t → t ≤ b → y1 + t * (y2 - y1) ≤ mxy)
    (hX1 : x1 + a * (x2 - x1) ≤ mxx) (hX2 : mxx < x1 + b * (x2 - x1)) :
    cR = false ∧
    ClipInv mnx mny mxx mxy x1 y1 x2 y2 cL true cB cT
      (x1 + a * (x2 - x1)) (y1 + a * (y2 - y1))
      mxx
      ((y1 + a * (y2 - y1)) + ((y1 + b * (y2 - y1)) - (y1 + a * (y2 - y1)))
        * (mxx - (x1 + a * (x2 - x1))) / ((x1 + b * (x2 - x1)) - (x1 + a * (x2 - x1)))) := by
  obtain ⟨hq1, hq2, hq3, hq4, hq5⟩ := clipB_max (c := x1) (d := x2 - x1) (a := a) (b := b)
    (M := mxx)
    (s := (mxx - (x1 + a * (x2 - x1))) / ((x1 + b * (x2 - x1)) - (x1 + a * (x2 - x1))))
    rfl hX1 hX2 hab
  constructor
  · cases cR with
    | false => rfl
    | true => exact absurd (hcR rfl b hab le_rfl) (not_le.mpr hX2)
  · refine ⟨a, a + (mxx - (x1 + a * (x2 - x1))) / ((x1 + b * (x2 - x1)) - (x1 + a * (x2 - x1)))
        * (b - a),
      ha0, hq1, by linarith, rfl, rfl, hq3.symm, by ring, ?_, ?_, ?_, ?_, ?_⟩
    · intro t h0 h1 hbx
      exact ⟨(hbox t h0 h1 hbx).1, hq4 t hbx.2.1⟩
    · intro h t h1 h2
      exact hcL h t h1 (by linarith)
    · intro _ t _ h2
      exact hq5 t h2
    · intro h t h1 h2
      exact hcB h t h1 (by linarith)
    · intro h t h1 h2
      exact hcT h t h1 (by linarith)

/-- Invariant update for clipping the second endpoint against the left
boundary (`outcode_out & 1`, second endpoint chosen). -/
theorem clipInv_step2_left {mnx mny mxx mxy x1 y1 x2 y2 a b : ℚ} {cL cR cB cT : Bool}
    (ha0 : 0 ≤ a) (hab : a ≤ b) (hb1 : b ≤ 1)
    (hbox : ∀ t, 0 ≤ t → t ≤ 1 →
      inBox (x1 + t * (x2 - x1)) (y1 + t * (y2 - y1)) mnx mny mxx mxy → a ≤ t ∧ t ≤ b)
    (hcL : cL = true → ∀ t, a ≤ t → t ≤ b → mnx ≤ x1 + t * (x2 - x1))
    (hcR : cR = true → ∀ t, a ≤ t → t ≤ b → x1 + t * (x2 - x1) ≤ mxx)
    (hcB : cB = true → ∀ t, a ≤ t → t ≤ b → mny ≤ y1 + t * (y2 - y1))
    (hcT : cT = true → ∀ t, a ≤ t → t ≤ b → y1 + t * (y2 - y1) ≤ mxy)
    (hX1 : mnx ≤ x1 + a * (x2 - x1)) (hX2 : x1 + b * (x2 - x1) < mnx) :
    cL = false ∧
    ClipInv mnx mny mxx mxy x1 y1 x2 y2 true cR cB cT
      (x1 + a * (x2 - x1)) (y1 + a * (y2 - y1))
      mnx
      ((y1 + a * (y2 - y1)) + ((y1 + b * (y2 - y1)) - (y1 + a * (y2 - y1)))
        * (mnx - (x1 + a * (x2 - x1))) / ((x1 + b * (x2 - x1)) - (x1 + a * (x2 - x1)))) := by
  obtain ⟨hq1, hq2, hq3, hq4, hq5⟩ := clipB_min (c := x1) (d := x2 - x1) (a := a) (b := b)
    (M := mnx)
    (s := (mnx - (x1 + a * (x2 - x1))) / ((x1 + b * (x2 - x1)) - (x1 + a * (x2 - x1))))
    rfl hX1 hX2 hab
  constructor
  · cases cL with
    | false => rfl
    | true => exact absurd (hcL rfl b hab le_rfl) (not_le.mpr hX2)
  · refine ⟨a, a + (mnx - (x1 + a * (x2 - x1))) / ((x1 + b * (x2 - x1)) - (x1 + a * (x2 - x1)))
        * (b - a),
      ha0, hq1, by linarith, rfl, rfl, hq3.symm, by ring, ?_, ?_, ?_, ?_, ?_⟩
    · intro t h0 h1 hbx
      exact ⟨(hbox t h0 h1 hbx).1, hq4 t hbx.1⟩
    · intro _ t _ h2
      exact hq5 t h2
    · intro h t h1 h2
      exact hcR h t h1 (by linarith)
    · intro h t h1 h2
      exact hcB h t h1 (by linarith)
    · intro h t h1 h2
      exact hcT h t h1 (by linarith)

/-- An outcode with all four bits clear is `INSIDE`. -/
theorem outcode_eq_inside_of_bits {o : Outcode} (hl : o.left = false) (hr : o.right = false)
    (hb : o.bottom = false) (ht : o.top = false) : o = Outcode.inside := by
  cases o
  simp_all [Outcode.inside]

/-- Correctness of the fuelled Cohen–Sutherland loop: from any state on the
original segment whose parameter interval still contains every parameter of
a segment point inside the box, with every already-clipped boundary
respected on the interval, the loop terminates within the remaining fuel
(one unit per not-yet-clipped boundary plus one) and its result is correct
for the original segment. -/
theorem clip_line_loop_correct (x1 y1 x2 y2 mnx mny mxx mxy : ℚ)
    (hx : mnx ≤ mxx) (hy : mny ≤ mxy) :
    ∀ (fuel : ℕ) (cL cR cB cT : Bool) (X1 Y1 X2 Y2 : ℚ),
      ClipInv mnx mny mxx mxy x1 y1 x2 y2 cL cR cB cT X1 Y1 X2 Y2 →
      5 ≤ fuel + (cL.toNat + cR.toNat + cB.toNat + cT.toNat) →
      ∃ res, clip_line_loop mnx mny mxx mxy fuel X1 Y1 X2 Y2 = some res ∧
        ClipLineOk x1 y1 x2 y2 mnx mny mxx mxy res := by
  intro fuel
  induction fuel with
  | zero =>
    intro cL cR cB cT X1 Y1 X2 Y2 _ hfuel
    exfalso
    cases cL <;> cases cR <;> cases cB <;> cases cT <;>
      simp only [Bool.toNat_false, Bool.toNat_true] at hfuel <;> omega
  | succ fuel ih =>
    intro cL cR cB cT X1 Y1 X2 Y2 hinv hfuel
    obtain ⟨a, b, ha0, hab, hb1, hX1, hY1, hX2, hY2, hbox, hcL, hcR, hcB, hcT⟩ := hinv
    subst hX1
    subst hY1
    subst hX2
    subst hY2
    by_cases hin :
        compute_outcode (x1 + a * (x2 - x1)) (y1 + a * (y2 - y1)) mnx mny mxx mxy
            = Outcode.inside ∧
        compute_outcode (x1 + b * (x2 - x1)) (y1 + b * (y2 - y1)) mnx mny mxx mxy
            = Outcode.inside
    · refine ⟨(some (x1 + a * (x2 - x1), y1 + a * (y2 - y1),
          x1 + b * (x2 - x1), y1 + b * (y2 - y1)), true), ?_, ?_, ?_, ?_⟩
      · simp only [clip_line_loop]
        rw [if_pos hin]
      · constructor
        · intro _
          exact ⟨a, ha0, le_trans hab hb1, (outcode_inside_iff _ _ _ _ _ _).mp hin.1⟩
        · intro _
          rfl
      · intro h
        exact Bool.noConfusion h
      · intro _
        exact ⟨a, b, ha0, hab, hb1, rfl, (outcode_inside_iff _ _ _ _ _ _).mp hin.1,
          (outcode_inside_iff _ _ _ _ _ _).mp hin.2, hbox⟩
    · by_cases hsh :
          (compute_outcode (x1 + a * (x2 - x1)) (y1 + a * (y2 - y1)) mnx mny mxx mxy).shares
            (compute_outcode (x1 + b * (x2 - x1)) (y1 + b * (y2 - y1)) mnx mny mxx mxy) = true
      · refine ⟨(none, false), ?_, ?_, ?_, ?_⟩
        · simp only [clip_line_loop]
          rw [if_neg hin, if_pos hsh]
        · constructor
          · intro h
            exact Bool.noConfusion h
          · rintro ⟨t, ht0, ht1, htbox⟩
            exfalso
            obtain ⟨hta, htb⟩ := hbox t ht0 ht1 htbox
            simp only [Outcode.shares, Bool.or_eq_true, Bool.and_eq_true] at hsh
            rcases hsh with ((⟨h1, h2⟩ | ⟨h1, h2⟩) | ⟨h1, h2⟩) | ⟨h1, h2⟩
            · have g1 := (outcode_left_iff _ _ _ _ _ _).mp h1
              have g2 := (outcode_left_iff _ _ _ _ _ _).mp h2
              exact absurd htbox.1 (not_le.mpr (lin_lt_of_ends g1 g2 hta htb))
            · have g1 := ((outcode_right_iff _ _ _ _ _ _).mp h1).2
              have g2 := ((outcode_right_iff _ _ _ _ _ _).mp h2).2
              exact absurd htbox.2.1 (not_le.mpr (lin_gt_of_ends g1 g2 hta htb))
            · have g1 := (outcode_bottom_iff _ _ _ _ _ _).mp h1
              have g2 := (outcode_bottom_iff _ _ _ _ _ _).mp h2
              exact absurd htbox.2.2.1 (not_le.mpr (lin_lt_of_ends g1 g2 hta htb))
            · have g1 := ((outcode_top_iff _ _ _ _ _ _).mp h1).2
              have g2 := ((outcode_top_iff _ _ _ _ _ _).mp h2).2
              exact absurd htbox.2.2.2 (not_le.mpr (lin_gt_of_ends g1 g2 hta htb))
        · intro _
          rfl
        · intro h
          exact Bool.noConfusion h
      · have hsh2 := hsh
        simp only [Outcode.shares, Bool.or_eq_true, Bool.and_eq_true, not_or] at hsh2
        obtain ⟨⟨⟨hshl, hshr⟩, hshb⟩, hsht⟩ := hsh2
        by_cases ho1 : compute_outcode (x1 + a * (x2 - x1)) (y1 + a * (y2 - y1)) mnx mny mxx mxy
            = Outcode.inside
        · -- the second endpoint is the one clipped
          have ho2 : ¬ compute_outcode (x1 + b * (x2 - x1)) (y1 + b * (y2 - y1)) mnx mny mxx mxy
              = Outcode.inside := fun h => hin ⟨ho1, h⟩
          have hne : ¬ (compute_outcode (x1 + b * (x2 - x1)) (y1 + b * (y2 - y1)) mnx mny mxx mxy
              = compute_outcode (x1 + a * (x2 - x1)) (y1 + a * (y2 - y1)) mnx mny mxx mxy) :=
            fun h => ho2 (h.trans ho1)
          have hbx1 := (outcode_inside_iff _ _ _ _ _ _).mp ho1
          by_cases htp : (compute_outcode (x1 + b * (x2 - x1)) (y1 + b * (y2 - y1))
              mnx mny mxx mxy).top = true
          · obtain ⟨hcf, hinv'⟩ := clipInv_step2_top ha0 hab hb1 hbox hcL hcR hcB hcT
              hbx1.2.2.2 ((outcode_top_iff _ _ _ _ _ _).mp htp).2
            obtain ⟨res, hres, hok⟩ := ih cL cR cB true _ _ _ _ hinv'
              (by rw [hcf] at hfuel
                  simp only [Bool.toNat_false, Bool.toNat_true] at hfuel ⊢
                  omega)
            refine ⟨res, ?_, hok⟩
            simp only [clip_line_loop]
            rw [if_neg hin, if_neg hsh, if_neg (not_not_intro ho1), if_pos htp, if_pos htp,
              if_neg hne]
            exact hres
          · by_cases hbt : (compute_outcode (x1 + b * (x2 - x1)) (y1 + b * (y2 - y1))
                mnx mny mxx mxy).bottom = true
            · obtain ⟨hcf, hinv'⟩ := clipInv_step2_bottom ha0 hab hb1 hbox hcL hcR hcB hcT
                hbx1.2.2.1 ((outcode_bottom_iff _ _ _ _ _ _).mp hbt)
              obtain ⟨res, hres, hok⟩ := ih cL cR true cT _ _ _ _ hinv'
                (by rw [hcf] at hfuel
                    simp only [Bool.toNat_false, Bool.toNat_true] at hfuel ⊢
                    omega)
              refine ⟨res, ?_, hok⟩
              simp only [clip_line_loop]
              rw [if_neg hin, if_neg hsh, if_neg (not_not_intro ho1), if_neg htp, if_neg htp,
                if_pos hbt, if_pos hbt, if_neg hne]
              exact hres
            · by_cases hrt : (compute_outcode (x1 + b * (x2 - x1)) (y1 + b * (y2 - y1))
                  mnx mny mxx mxy).right = true
              · obtain ⟨hcf, hinv'⟩ := clipInv_step2_right ha0 hab hb1 hbox hcL hcR hcB hcT
                  hbx1.2.1 ((outcode_right_iff _ _ _ _ _ _).mp hrt).2
                obtain ⟨res, hres, hok⟩ := ih cL true cB cT _ _ _ _ hinv'
                  (by rw [hcf] at hfuel
                      simp only [Bool.toNat_false, Bool.toNat_true] at hfuel ⊢
                      omega)
                refine ⟨res, ?_, hok⟩
                simp only [clip_line_loop]
                rw [if_neg hin, if_neg hsh, if_neg (not_not_intro ho1), if_neg htp, if_neg htp,
                  if_neg hbt, if_neg hbt, if_pos hrt, if_pos hrt, if_neg hne]
                exact hres
              · have hlf : (compute_outcode (x1 + b * (x2 - x1)) (y1 + b * (y2 - y1))
                    mnx mny mxx mxy).left = true := by
                  by_contra hlf
                  exact ho2 (outcode_eq_inside_of_bits (Bool.eq_false_iff.mpr hlf)
                    (Bool.eq_false_iff.mpr hrt) (Bool.eq_false_iff.mpr hbt)
                    (Bool.eq_false_iff.mpr htp))
                obtain ⟨hcf, hinv'⟩ := clipInv_step2_left ha0 hab hb1 hbox hcL hcR hcB hcT
                  hbx1.1 ((outcode_left_iff _ _ _ _ _ _).mp hlf)
                obtain ⟨res, hres, hok⟩ := ih true cR cB cT _ _ _ _ hinv'
                  (by rw [hcf] at hfuel
                      simp only [Bool.toNat_false, Bool.toNat_true] at hfuel ⊢
                      omega)
                refine ⟨res, ?_, hok⟩
                simp only [clip_line_loop]
                rw [if_neg hin, if_neg hsh, if_neg (not_not_intro ho1), if_neg htp, if_neg htp,
                  if_neg hbt, if_neg hbt, if_neg hrt, if_neg hrt, if_pos hlf, if_pos hlf,
                  if_neg hne]
                exact hres
        · -- the first endpoint is the one clipped
          by_cases htp : (compute_outcode (x1 + a * (x2 - x1)) (y1 + a * (y2 - y1))
              mnx mny mxx mxy).top = true
          · have hgt := ((outcode_top_iff _ _ _ _ _ _).mp htp).2
            have hY2 : y1 + b * (y2 - y1) ≤ mxy := by
              by_contra hcon
              push_neg at hcon
              exact (fun h => hsht ⟨htp, h⟩)
                ((outcode_top_iff _ _ _ _ _ _).mpr ⟨not_lt.mpr (by linarith), hcon⟩)
            obtain ⟨hcf, hinv'⟩ := clipInv_step1_top ha0 hab hb1 hbox hcL hcR hcB hcT hgt hY2
            obtain ⟨res, hres, hok⟩ := ih cL cR cB true _ _ _ _ hinv'
              (by rw [hcf] at hfuel
                  simp only [Bool.toNat_false, Bool.toNat_true] at hfuel ⊢
                  omega)
            refine ⟨res, ?_, hok⟩
            simp only [clip_line_loop]
            rw [if_neg hin, if_neg hsh, if_pos ho1, if_pos htp, if_pos htp, if_pos rfl]
            exact hres
          · by_cases hbt : (compute_outcode (x1 + a * (x2 - x1)) (y1 + a * (y2 - y1))
                mnx mny mxx mxy).bottom = true
            · have hlt := (outcode_bottom_iff _ _ _ _ _ _).mp hbt
              have hY2 : mny ≤ y1 + b * (y2 - y1) := by
                by_contra hcon
                push_neg at hcon
                exact (fun h => hshb ⟨hbt, h⟩) ((outcode_bottom_iff _ _ _ _ _ _).mpr hcon)
              obtain ⟨hcf, hinv'⟩ := clipInv_step1_bottom ha0 hab hb1 hbox hcL hcR hcB hcT
                hlt hY2
              obtain ⟨res, hres, hok⟩ := ih cL cR true cT _ _ _ _ hinv'
                (by rw [hcf] at hfuel
                    simp only [Bool.toNat_false, Bool.toNat_true] at hfuel ⊢
                    omega)
              refine ⟨res, ?_, hok⟩
              simp only [clip_line_loop]
              rw [if_neg hin, if_neg hsh, if_pos ho1, if_neg htp, if_neg htp,
                if_pos hbt, if_pos hbt, if_pos rfl]
              exact hres
            · by_cases hrt : (compute_outcode (x1 + a * (x2 - x1)) (y1 + a * (y2 - y1))
                  mnx mny mxx mxy).right = true
              · have hgt := ((outcode_right_iff _ _ _ _ _ _).mp hrt).2
                have hX2 : x1 + b * (x2 - x1) ≤ mxx := by
                  by_contra hcon
                  push_neg at hcon
                  exact (fun h => hshr ⟨hrt, h⟩)
                    ((outcode_right_iff _ _ _ _ _ _).mpr ⟨not_lt.mpr (by linarith), hcon⟩)
                obtain ⟨hcf, hinv'⟩ := clipInv_step1_right ha0 hab hb1 hbox hcL hcR hcB hcT
                  hgt hX2
                obtain ⟨res, hres, hok⟩ := ih cL true cB cT _ _ _ _ hinv'
                  (by rw [hcf] at hfuel
                      simp only [Bool.toNat_false, Bool.toNat_true] at hfuel ⊢
                      omega)
                refine ⟨res, ?_, hok⟩
                simp only [clip_line_loop]
                rw [if_neg hin, if_neg hsh, if_pos ho1, if_neg htp, if_neg htp,
                  if_neg hbt, if_neg hbt, if_pos hrt, if_pos hrt, if_pos rfl]
                exact hres
              · have hlf : (compute_outcode (x1 + a * (x2 - x1)) (y1 + a * (y2 - y1))
                    mnx mny mxx mxy).left = true := by
                  by_contra hlf
                  exact ho1 (outcode_eq_inside_of_bits (Bool.eq_false_iff.mpr hlf)
                    (Bool.eq_false_iff.mpr hrt) (Bool.eq_false_iff.mpr hbt)
                    (Bool.eq_false_iff.mpr htp))
                have hlt := (outcode_left_iff _ _ _ _ _ _).mp hlf
                have hX2 : mnx ≤ x1 + b * (x2 - x1) := by
                  by_contra hcon
                  push_neg at hcon
                  exact (fun h => hshl ⟨hlf, h⟩) ((outcode_left_iff _ _ _ _ _ _).mpr hcon)
                obtain ⟨hcf, hinv'⟩ := clipInv_step1_left ha0 hab hb1 hbox hcL hcR hcB hcT
                  hlt hX2
                obtain ⟨res, hres, hok⟩ := ih true cR cB cT _ _ _ _ hinv'
                  (by rw [hcf] at hfuel
                      simp only [Bool.toNat_false, Bool.toNat_true] at hfuel ⊢
                      omega)
                refine ⟨res, ?_, hok⟩
                simp only [clip_line_loop]
                rw [if_neg hin, if_neg hsh, if_pos ho1, if_neg htp, if_neg htp,
                  if_neg hbt, if_neg hbt, if_neg hrt, if_neg hrt, if_pos hlf, if_pos hlf,
                  if_pos rfl]
                exact hres

/-- **C5.** `Clipper.clip_line` on a clip rectangle `[min_x, max_x] × [min_y, max_y]`
(so `min_x ≤ max_x`, `min_y ≤ max_y`) always terminates (5 loop iterations
suffice), and: it returns `accepted = true` iff the segment meets the closed
rectangle (either endpoint inside, or the segment crossing it — i.e. some
point `(x1,y1) + t·((x2,y2)-(x1,y1))`, `t ∈ [0,1]`, lies in the rectangle);
on reject it returns `(None, False)`; on accept it returns clipped endpoints
that lie on the original segment (parameters `0 ≤ a ≤ b ≤ 1`), lie in the
rectangle, and enclose every parameter whose segment point is in the
rectangle. -/
theorem C5_clip_line_correct (x1 y1 x2 y2 mnx mny mxx mxy : ℚ)
    (hx : mnx ≤ mxx) (hy : mny ≤ mxy) :
    ∃ res, clip_line x1 y1 x2 y2 mnx mny mxx mxy = some res ∧
      ClipLineOk x1 y1 x2 y2 mnx mny mxx mxy res :=
  clip_line_loop_correct x1 y1 x2 y2 mnx mny mxx mxy hx hy 5 false false false false
    x1 y1 x2 y2
    ⟨0, 1, le_refl 0, by norm_num, le_refl 1, by ring, by ring, by ring, by ring,
      fun t h0 h1 _ => ⟨h0, h1⟩,
      fun h => Bool.noConfusion h, fun h => Bool.noConfusion h,
      fun h => Bool.noConfusion h, fun h => Bool.noConfusion h⟩
    (by simp only [Bool.toNat_false]; omega)

/-- Witness for C5: the segment from `(-1, 0)` to `(2, 0)` against the unit
square `[0,1] × [0,1]` (a crossing segment with both endpoints outside). -/
theorem C5_clip_line_correct_witness :
    ∃ res, clip_line (-1) 0 2 0 0 0 1 1 = some res ∧
      ClipLineOk (-1) 0 2 0 0 0 1 1 res :=
  C5_clip_line_correct (-1) 0 2 0 0 0 1 1 (by norm_num) (by norm_num)
